import Mathlib

/-!
Verification of the iris-tools persistent record store: a fixed-slot binary
file format (`FileHandler`), a uuid-keyed identity manager
(`collection_manager_memory`), and a composite-key relationship manager with a
parent index (`collection_manager_join`).

Files are modelled as byte lists (`List Nat`), Go maps as association lists,
and fallible I/O syscalls by an explicit `wok : Bool` success flag.  JSON
encoding is an external capability and is modelled by abstract
marshal/unmarshal functions packaged in a codec structure, with the properties
real JSON encoding enjoys (round trip, no embedded zero byte, nonempty
output) stated as explicit assumptions where proofs need them.
-/

namespace IrisTools

/-- Status byte of an active slot (source constant `StatusActive`). -/
def StatusActive : Nat := 0

/-- Status byte of a tombstoned slot (source constant `StatusDeleted`). -/
def StatusDeleted : Nat := 1

/-- Error outcomes of the store operations, mirroring the distinct
`fmt.Errorf` sites of the source. -/
inductive Err where
  | capacity
  | ioWrite
  | negOffset
  | noData
  | deletedSlot
  | emptyData
  | notFound
  | closedMgr
  | keyExists
  | noParent
  | fileClosed
  deriving DecidableEq, Repr

/-- POSIX `WriteAt` semantics on a byte-list file: overwrite `data` starting
at byte `off`, zero-filling any gap and extending the file as needed. -/
def writeAt (file : List Nat) (off : Nat) (data : List Nat) : List Nat :=
  file.take off ++ List.replicate (off - file.length) 0 ++ data ++
    file.drop (off + data.length)

/-- The slot bytes produced by `WriteRecord`/`UpdateRecord`: status byte
`StatusActive`, then the payload, zero-padded to `rs` bytes. -/
def mkSlot (rs : Nat) (data : List Nat) : List Nat :=
  StatusActive :: (data ++ List.replicate (rs - 1 - data.length) 0)

/-- `FileHandler.WriteRecord`: reject payloads larger than `recordSize - 1`
(Go `int` arithmetic, hence the `Int` comparison), otherwise append a fresh
active slot at end of file and return its offset.  `wok` models whether the
underlying `Write` syscall succeeds. -/
def FileHandler.WriteRecord (rs : Nat) (wok : Bool) (file : List Nat)
    (data : List Nat) : Except Err (Nat × List Nat) :=
  if (data.length : Int) > (rs : Int) - 1 then .error .capacity
  else if wok then .ok (file.length, file ++ mkSlot rs data)
  else .error .ioWrite

/-- Core of `FileHandler.ReadRecord` acting on the `rs`-byte chunk starting
at the requested offset: `chunk` is what `ReadAt` could fill (`n` bytes), the
rest of the buffer stays zero. -/
def readChunk (rs : Nat) (chunk : List Nat) : Except Err (List Nat) :=
  if chunk.length = 0 then .error .noData
  else
    let buf := chunk ++ List.replicate (rs - chunk.length) 0
    if buf.headD 0 = StatusDeleted then .error .deletedSlot
    else
      match (buf.drop 1).findIdx? (fun b => b == 0) with
      | none => .ok ((buf.drop 1).take (rs - 1))
      | some 0 => .error .emptyData
      | some (d + 1) => .ok ((buf.drop 1).take (d + 1))

/-- `FileHandler.ReadRecord`: fail on a negative offset, otherwise read the
`rs`-byte chunk at `offset` and decode it. -/
def FileHandler.ReadRecord (rs : Nat) (file : List Nat) (offset : Int) :
    Except Err (List Nat) :=
  if offset < 0 then .error .negOffset
  else readChunk rs ((file.drop offset.toNat).take rs)

/-- `FileHandler.UpdateRecord`: same capacity check as `WriteRecord`, then
rewrite the whole slot in place at `offset`. -/
def FileHandler.UpdateRecord (rs : Nat) (wok : Bool) (file : List Nat)
    (offset : Nat) (data : List Nat) : Except Err (List Nat) :=
  if (data.length : Int) > (rs : Int) - 1 then .error .capacity
  else if wok then .ok (writeAt file offset (mkSlot rs data))
  else .error .ioWrite

/-- `FileHandler.DeleteRecord`: overwrite only the status byte with
`StatusDeleted`. -/
def FileHandler.DeleteRecord (wok : Bool) (file : List Nat) (offset : Nat) :
    Except Err (List Nat) :=
  if wok then .ok (writeAt file offset [StatusDeleted]) else .error .ioWrite

/-! ### Association lists (the model of Go maps) -/

/-- Go map read `m[k]`. -/
def alookup {κ β : Type} [DecidableEq κ] (k : κ) :
    List (κ × β) → Option β
  | [] => none
  | (k', v) :: rest => if k' = k then some v else alookup k rest

/-- Go map write `m[k] = v`: replace in place if present, else append. -/
def ainsert {κ β : Type} [DecidableEq κ] (k : κ) (v : β) :
    List (κ × β) → List (κ × β)
  | [] => [(k, v)]
  | (k', v') :: rest =>
      if k' = k then (k, v) :: rest else (k', v') :: ainsert k v rest

/-- Go map `delete(m, k)`. -/
def aerase {κ β : Type} [DecidableEq κ] (k : κ) :
    List (κ × β) → List (κ × β)
  | [] => []
  | (k', v') :: rest => if k' = k then rest else (k', v') :: aerase k rest

/-- The keys of an association list. -/
def akeys {κ β : Type} (l : List (κ × β)) : List κ := l.map Prod.fst

/-! ### Identity manager (`collection_manager_memory`) -/

/-- The `collectionItem` interface together with the opaque JSON
serialize/deserialize capability, for the identity manager. -/
structure IdCodec (α : Type) where
  getID : α → Nat
  setID : α → Nat → α
  setCreatedAt : α → Nat → α
  setUpdatedAt : α → Nat → α
  recordSize : Nat
  marshal : α → List Nat
  unmarshal : List Nat → Option α

/-- State of an identity `Manager`: the backing file's bytes, the in-memory
`dataCache`, the manager's `closed` flag and whether the underlying file
handle has been closed. -/
structure MState (α : Type) where
  file : List Nat
  cache : List (Nat × α)
  closed : Bool
  fhClosed : Bool
  deriving Repr

/-- The state of a freshly constructed manager over an empty file. -/
def initState (α : Type) : MState α :=
  { file := [], cache := [], closed := false, fhClosed := false }

/-- Loop of `loadAllDataToCache`: read a record, decode it,
and insert it keyed by its decoded identifier; failures are skipped.  `n`
counts the remaining loop iterations (`offset < fileSize` in strides of
`recordSize`). -/
def loadIter {α : Type} (c : IdCodec α) (file : List Nat)
    (cache : List (Nat × α)) (offset : Nat) : Nat → List (Nat × α)
  | 0 => cache
  | n + 1 =>
    let cache' :=
      match (FileHandler.ReadRecord c.recordSize file (offset : Int)).toOption.bind
          c.unmarshal with
      | none => cache
      | some item => ainsert (c.getID item) item cache
    loadIter c file cache' (offset + c.recordSize) n

/-- `Manager.loadAllDataToCache` starting from an empty cache: walk the file
from offset 0 in `recordSize` strides. -/
def loadCache {α : Type} (c : IdCodec α) (file : List Nat) : List (Nat × α) :=
  loadIter c file [] 0 ((file.length + c.recordSize - 1) / c.recordSize)

/-- `New`: open the backing file and load every readable record into the
cache. -/
def newManager {α : Type} (c : IdCodec α) (file : List Nat) : MState α :=
  { file := file, cache := loadCache c file, closed := false,
    fhClosed := false }

/-- Loop of `Manager.findRecordOffset`: linear scan decoding every readable
record until the identifier matches. -/
def findIter {α : Type} (c : IdCodec α) (file : List Nat) (id : Nat)
    (offset : Nat) : Nat → Option Nat
  | 0 => none
  | n + 1 =>
    match (FileHandler.ReadRecord c.recordSize file (offset : Int)).toOption.bind
        c.unmarshal with
    | some item =>
        if c.getID item = id then some offset
        else findIter c file id (offset + c.recordSize) n
    | none => findIter c file id (offset + c.recordSize) n

/-- `Manager.findRecordOffset`. -/
def findRecordOffset {α : Type} (c : IdCodec α) (file : List Nat) (id : Nat) :
    Option Nat :=
  findIter c file id 0 ((file.length + c.recordSize - 1) / c.recordSize)

/-- `Manager.Create`: fail when closed; assign the minted identifier `newId`
and creation time `now`; marshal; append to the file; insert into the cache.
`newId` stands for the freshly generated UUIDv7 and `wok` for the success of
the underlying file write. -/
def mcreate {α : Type} (c : IdCodec α) (wok : Bool) (newId : Nat) (now : Nat)
    (item : α) (s : MState α) : Except Err α × MState α :=
  if s.closed then (.error .closedMgr, s)
  else
    let item1 := c.setCreatedAt (c.setID item newId) now
    match FileHandler.WriteRecord c.recordSize wok s.file (c.marshal item1) with
    | .error e => (.error e, s)
    | .ok (_, file') =>
        (.ok item1,
          { s with file := file', cache := ainsert newId item1 s.cache })

/-- `Manager.Read`: cache-only lookup. -/
def mread {α : Type} (id : Nat) (s : MState α) : Except Err α :=
  match alookup id s.cache with
  | none => .error .notFound
  | some item => .ok item

/-- `Manager.Count`. -/
def mcount {α : Type} (s : MState α) : Nat := s.cache.length

/-- `Manager.Update`: refresh the update timestamp, require the identifier in
the cache, relocate the record's offset by linear scan, rewrite the slot, and
replace the cache entry. -/
def mupdate {α : Type} (c : IdCodec α) (wok : Bool) (now : Nat) (item : α)
    (s : MState α) : Except Err α × MState α :=
  let item1 := c.setUpdatedAt item now
  let id := c.getID item1
  match alookup id s.cache with
  | none => (.error .notFound, s)
  | some _ =>
    match findRecordOffset c s.file id with
    | none => (.error .notFound, s)
    | some off =>
      match FileHandler.UpdateRecord c.recordSize wok s.file off
          (c.marshal item1) with
      | .error e => (.error e, s)
      | .ok file' =>
          (.ok item1,
            { s with file := file', cache := ainsert id item1 s.cache })

/-- `Manager.Delete`: require the identifier in the cache, relocate its
offset, tombstone the slot, and remove the cache entry. -/
def mdelete {α : Type} (c : IdCodec α) (wok : Bool) (id : Nat) (s : MState α) :
    Except Err Unit × MState α :=
  match alookup id s.cache with
  | none => (.error .notFound, s)
  | some _ =>
    match findRecordOffset c s.file id with
    | none => (.error .notFound, s)
    | some off =>
      match FileHandler.DeleteRecord wok s.file off with
      | .error e => (.error e, s)
      | .ok file' =>
          (.ok (), { s with file := file', cache := aerase id s.cache })

/-- `Manager.Close`: a second close is gated by the `closed` flag; the first
close discards the cache and closes the file handle (closing an already
closed handle would error, like `os.File.Close`). -/
def mclose {α : Type} (s : MState α) : Except Err Unit × MState α :=
  if s.closed then (.ok (), s)
  else
    ((if s.fhClosed then .error .fileClosed else .ok ()),
      { s with closed := true, cache := [], fhClosed := true })

/-! ### Relationship manager (`collection_manager_join`)

Go strings are byte sequences; composite keys are therefore modelled as
`List Nat` and the `":"` separator as byte 58.  Only the first
separator-delimited component of a key is ever used by the source
(`strings.Split(key, ":")` followed by `keyParts[0]`), which is the prefix of
the key before the first 58 byte. -/

/-- `strings.Split(key, ":")[0]`: the bytes before the first separator, or
the whole key when no separator occurs.  `strings.Split` never returns an
empty list, so the source's `len(keyParts) > 0` guard is always true. -/
def firstPart (key : List Nat) : List Nat :=
  key.takeWhile (fun b => b ≠ 58)

/-- The `JoinItem` interface plus the opaque serialize/deserialize capability
and the optional `Timestampable` capability (items without it instantiate the
setters with the identity, matching the skipped runtime type assertion). -/
structure JoinCodec (α : Type) where
  getKey : α → List Nat
  recordSize : Nat
  marshal : α → List Nat
  unmarshal : List Nat → Option α
  setCreatedAt : α → Nat → α
  setUpdatedAt : α → Nat → α

/-- State of a relationship `Manager`: file bytes, primary `dataCache`, the
secondary `parentCache`, and the lifecycle flags. -/
structure JState (α : Type) where
  file : List Nat
  dataCache : List (List Nat × α)
  parentCache : List (List Nat × List α)
  closed : Bool
  fhClosed : Bool
  deriving Repr

/-- A freshly constructed relationship manager over an empty file. -/
def jinitState (α : Type) : JState α :=
  { file := [], dataCache := [], parentCache := [], closed := false,
    fhClosed := false }

/-- Append `item` to the parent index entry of `p` (`m.parentCache[parentID] =
append(m.parentCache[parentID], item)`; a missing Go map entry reads as
nil). -/
def pappend {α : Type} (pc : List (List Nat × List α)) (p : List Nat)
    (item : α) : List (List Nat × List α) :=
  ainsert p ((alookup p pc).getD [] ++ [item]) pc

/-- The delete-side parent index surgery: remove the first entry of the list
whose composite key matches, leaving the rest (`append(items[:i],
items[i+1:]...)` guarded by `break`); `none` when no entry matches. -/
def removeFirstKey {α : Type} (c : JoinCodec α) (key : List Nat) :
    List α → Option (List α)
  | [] => none
  | v :: rest =>
      if c.getKey v = key then some rest
      else (removeFirstKey c key rest).map (fun l => v :: l)

/-- Loop of the relationship manager's `findRecordOffset`, matching on the
composite key. -/
def jfindIter {α : Type} (c : JoinCodec α) (file : List Nat) (key : List Nat)
    (offset : Nat) : Nat → Option Nat
  | 0 => none
  | n + 1 =>
    match (FileHandler.ReadRecord c.recordSize file (offset : Int)).toOption.bind
        c.unmarshal with
    | some item =>
        if c.getKey item = key then some offset
        else jfindIter c file key (offset + c.recordSize) n
    | none => jfindIter c file key (offset + c.recordSize) n

/-- The relationship manager's `findRecordOffset`. -/
def jfindRecordOffset {α : Type} (c : JoinCodec α) (file : List Nat)
    (key : List Nat) : Option Nat :=
  jfindIter c file key 0 ((file.length + c.recordSize - 1) / c.recordSize)

/-- Relationship `Manager.Create`: fail when closed or when the composite key
already exists; stamp creation/update times; marshal, append to the file,
insert into the primary cache, and append to the parent index. -/
def jcreate {α : Type} (c : JoinCodec α) (wok : Bool) (now : Nat) (item : α)
    (s : JState α) : Except Err α × JState α :=
  if s.closed then (.error .closedMgr, s)
  else
    let key := c.getKey item
    if (alookup key s.dataCache).isSome then (.error .keyExists, s)
    else
      let item1 := c.setUpdatedAt (c.setCreatedAt item now) now
      match FileHandler.WriteRecord c.recordSize wok s.file
          (c.marshal item1) with
      | .error e => (.error e, s)
      | .ok (_, file') =>
          (.ok item1,
            { s with
                file := file',
                dataCache := ainsert key item1 s.dataCache,
                parentCache := pappend s.parentCache (firstPart key) item1 })

/-- Relationship `Manager.Clone`: like `Create` but without timestamping. -/
def jclone {α : Type} (c : JoinCodec α) (wok : Bool) (item : α)
    (s : JState α) : Except Err α × JState α :=
  if s.closed then (.error .closedMgr, s)
  else
    let key := c.getKey item
    if (alookup key s.dataCache).isSome then (.error .keyExists, s)
    else
      match FileHandler.WriteRecord c.recordSize wok s.file (c.marshal item) with
      | .error e => (.error e, s)
      | .ok (_, file') =>
          (.ok item,
            { s with
                file := file',
                dataCache := ainsert key item s.dataCache,
                parentCache := pappend s.parentCache (firstPart key) item })

/-- Relationship `Manager.Read`. -/
def jread {α : Type} (key : List Nat) (s : JState α) : Except Err α :=
  match alookup key s.dataCache with
  | none => .error .notFound
  | some item => .ok item

/-- Relationship `Manager.Count`. -/
def jcount {α : Type} (s : JState α) : Nat := s.dataCache.length

/-- Relationship `Manager.Update`: require the key in the primary cache,
refresh the update timestamp, relocate the offset, rewrite the slot, and
replace the primary cache entry.  The parent index is not touched. -/
def jupdate {α : Type} (c : JoinCodec α) (wok : Bool) (now : Nat) (item : α)
    (s : JState α) : Except Err α × JState α :=
  let key := c.getKey item
  match alookup key s.dataCache with
  | none => (.error .notFound, s)
  | some _ =>
    let item1 := c.setUpdatedAt item now
    match jfindRecordOffset c s.file key with
    | none => (.error .notFound, s)
    | some off =>
      match FileHandler.UpdateRecord c.recordSize wok s.file off
          (c.marshal item1) with
      | .error e => (.error e, s)
      | .ok file' =>
          (.ok item1,
            { s with
                file := file',
                dataCache := ainsert key item1 s.dataCache })

/-- Relationship `Manager.Delete`: require the key, relocate the offset,
tombstone the slot, remove from the primary cache, and remove the specific
entry from that parent's list in the parent index. -/
def jdelete {α : Type} (c : JoinCodec α) (wok : Bool) (key : List Nat)
    (s : JState α) : Except Err Unit × JState α :=
  match alookup key s.dataCache with
  | none => (.error .notFound, s)
  | some _ =>
    match jfindRecordOffset c s.file key with
    | none => (.error .notFound, s)
    | some off =>
      match FileHandler.DeleteRecord wok s.file off with
      | .error e => (.error e, s)
      | .ok file' =>
          let p := firstPart key
          let pc :=
            match removeFirstKey c key ((alookup p s.parentCache).getD []) with
            | none => s.parentCache
            | some items => ainsert p items s.parentCache
          (.ok (),
            { s with
                file := file',
                dataCache := aerase key s.dataCache,
                parentCache := pc })

/-- `Manager.GetByParentID` (the argument is the parent identifier rendered
as a string, i.e. a byte sequence): fail when the parent has no entry or an
empty entry, otherwise return that parent's current list. -/
def jgetByParentID {α : Type} (s : JState α) (p : List Nat) :
    Except Err (List α) :=
  match alookup p s.parentCache with
  | none => .error .noParent
  | some items => if items.length = 0 then .error .noParent else .ok items

/-- Relationship `Manager.Close`: same closed-flag gating as the identity
manager. -/
def jclose {α : Type} (s : JState α) : Except Err Unit × JState α :=
  if s.closed then (.ok (), s)
  else
    ((if s.fhClosed then .error .fileClosed else .ok ()),
      { s with
          closed := true
          dataCache := []
          parentCache := []
          fhClosed := true })

/-! ### Concrete item types used to evaluate the model on closed inputs -/

/-- A concrete simple item (compare the test's `Model`), with an explicit
injective, zero-byte-free encoding standing in for its JSON serialization. -/
structure Model where
  mid : Nat
  createdAt : Nat
  updatedAt : Nat
  deriving DecidableEq, Repr

/-- Codec for `Model`: record size 8, one byte per field shifted by one so
that no encoded byte is the zero terminator. -/
def modelCodec : IdCodec Model where
  getID m := m.mid
  setID m i := { m with mid := i }
  setCreatedAt m t := { m with createdAt := t }
  setUpdatedAt m t := { m with updatedAt := t }
  recordSize := 8
  marshal m := [m.mid + 1, m.createdAt + 1, m.updatedAt + 1]
  unmarshal l :=
    match l with
    | [a, b, c] =>
        if a = 0 ∨ b = 0 ∨ c = 0 then none else some ⟨a - 1, b - 1, c - 1⟩
    | _ => none

/-- A concrete relationship item (compare the test's `PhotoAlbums` plus a
payload field), whose composite key is `parent:child` rendered in bytes. -/
structure JModel where
  parent : Nat
  child : Nat
  val : Nat
  deriving DecidableEq, Repr

/-- Codec for `JModel`: the key bytes avoid the separator byte 58 and the
zero byte; the item does not support timestamps, so the setters are the
identity exactly as the skipped `Timestampable` type assertion. -/
def jmodelCodec : JoinCodec JModel where
  getKey m := [m.parent + 60, 58, m.child + 60]
  recordSize := 8
  marshal m := [m.parent + 1, m.child + 1, m.val + 1]
  unmarshal l :=
    match l with
    | [a, b, c] =>
        if a = 0 ∨ b = 0 ∨ c = 0 then none else some ⟨a - 1, b - 1, c - 1⟩
    | _ => none
  setCreatedAt m _ := m
  setUpdatedAt m _ := m

deriving instance DecidableEq for Except

/-! ### Derived notions used to state and prove the claims -/

/-- The zero-padded `recordSize`-byte buffer `ReadRecord` fills at `off`. -/
def readBuf (rs : Nat) (file : List Nat) (off : Nat) : List Nat :=
  (file.drop off).take rs ++
    List.replicate (rs - ((file.drop off).take rs).length) 0

/-- The file's decomposition into `recordSize`-wide slots. -/
def chunks (rs : Nat) (l : List Nat) : List (List Nat) :=
  if h : rs = 0 ∨ l = [] then [] else l.take rs :: chunks rs (l.drop rs)
termination_by l.length
decreasing_by
  push_neg at h
  have h1 : 0 < l.length := List.length_pos.mpr h.2
  simp only [List.length_drop]
  omega

/-- What the load scan recovers from one slot: `ReadRecord` composed with
decoding. -/
def decodeSlot {α : Type} (c : IdCodec α) (slot : List Nat) : Option α :=
  (readChunk c.recordSize slot).toOption.bind c.unmarshal

/-- The decodable records of the non-tombstoned slots, in file order. -/
def activeItems {α : Type} (c : IdCodec α) (file : List Nat) : List α :=
  (chunks c.recordSize file).filterMap (decodeSlot c)

/-- Slot-level restatement of the load loop, used to relate `loadCache` to
`activeItems`. -/
def slotLoad {α : Type} (c : IdCodec α) (acc : List (Nat × α)) :
    List (List Nat) → List (Nat × α)
  | [] => acc
  | slot :: rest =>
      slotLoad c
        (match decodeSlot c slot with
         | none => acc
         | some item => ainsert (c.getID item) item acc) rest

/-- Slot-level restatement of the offset relocation loop: the index of the
first slot decoding to the wanted identifier. -/
def slotFind {α : Type} (c : IdCodec α) (id : Nat) :
    List (List Nat) → Option Nat
  | [] => none
  | slot :: rest =>
      match decodeSlot c slot with
      | some item =>
          if c.getID item = id then some 0
          else (slotFind c id rest).map (fun j => j + 1)
      | none => (slotFind c id rest).map (fun j => j + 1)

/-- The properties the JSON encoding of a collection item enjoys: the slot
holds at least two bytes, encoding round-trips, is nonempty, contains no zero
byte, and the identifier accessors behave like the Go struct's field
accessors. -/
structure GoodCodec {α : Type} (c : IdCodec α) : Prop where
  rs_ge : 2 ≤ c.recordSize
  roundtrip : ∀ x, c.unmarshal (c.marshal x) = some x
  marshal_pos : ∀ x, 1 ≤ (c.marshal x).length
  marshal_nz : ∀ x, 0 ∉ c.marshal x
  getID_setCreatedAt : ∀ x t, c.getID (c.setCreatedAt x t) = c.getID x
  getID_setUpdatedAt : ∀ x t, c.getID (c.setUpdatedAt x t) = c.getID x
  getID_setID : ∀ x i, c.getID (c.setID x i) = i

/-- Identity-manager states reachable from a fresh manager by `Create`,
`Update` and `Delete`, with arbitrary interleaved I/O failures.  A `Create`
mints an identifier not currently cached, which is what UUIDv7 generation
provides. -/
inductive Reach {α : Type} (c : IdCodec α) : MState α → Prop where
  | init : Reach c (initState α)
  | step_create (s : MState α) (wok : Bool) (id now : Nat) (item : α) :
      Reach c s → id ∉ akeys s.cache →
      Reach c (mcreate c wok id now item s).2
  | step_update (s : MState α) (wok : Bool) (now : Nat) (item : α) :
      Reach c s → Reach c (mupdate c wok now item s).2
  | step_delete (s : MState α) (wok : Bool) (id : Nat) :
      Reach c s → Reach c (mdelete c wok id s).2

/-- Cache/file coherence of the identity manager: the file is slot-aligned,
the cache lists exactly the active decodable records keyed by their decoded
identifiers, and no identifier occurs in two active slots. -/
def MInv {α : Type} (c : IdCodec α) (s : MState α) : Prop :=
  c.recordSize ∣ s.file.length ∧
  s.cache = (activeItems c s.file).map (fun a => (c.getID a, a)) ∧
  ((activeItems c s.file).map c.getID).Nodup

/-- The laws the composite key of a relationship item obeys: timestamping
does not change the key. -/
structure GoodJoinCodec {α : Type} (c : JoinCodec α) : Prop where
  key_setCreatedAt : ∀ x t, c.getKey (c.setCreatedAt x t) = c.getKey x
  key_setUpdatedAt : ∀ x t, c.getKey (c.setUpdatedAt x t) = c.getKey x

/-- Relationship-manager states reachable by `Create`, `Clone` and `Delete`
(the operations that maintain the parent index). -/
inductive JReach {α : Type} (c : JoinCodec α) : JState α → Prop where
  | init : JReach c (jinitState α)
  | step_create (t : JState α) (wok : Bool) (now : Nat) (item : α) :
      JReach c t → JReach c (jcreate c wok now item t).2
  | step_clone (t : JState α) (wok : Bool) (item : α) :
      JReach c t → JReach c (jclone c wok item t).2
  | step_delete (t : JState α) (wok : Bool) (key : List Nat) :
      JReach c t → JReach c (jdelete c wok key t).2

/-- The current children of parent `p` according to the primary cache: the
values of the entries whose composite key has `p` as first component. -/
def jchildren {α : Type} (s : JState α) (p : List Nat) : List α :=
  (s.dataCache.filter (fun kv => firstPart kv.1 == p)).map Prod.snd

/-- Primary-cache/parent-index coherence of the relationship manager. -/
def JInv {α : Type} (c : JoinCodec α) (s : JState α) : Prop :=
  (∀ kv ∈ s.dataCache, c.getKey kv.2 = kv.1) ∧
  (akeys s.dataCache).Nodup ∧
  (∀ p, (alookup p s.parentCache).getD [] = jchildren s p)

/-- Concrete run: create the relationship item `1:1` with payload 5. -/
def jstale0 : JState JModel :=
  (jcreate jmodelCodec true 0 ⟨1, 1, 5⟩ (jinitState JModel)).2

/-- Concrete run: then update the same key `1:1` to payload 9.  The primary
cache now holds payload 9 while the parent index still lists payload 5. -/
def jstale1 : JState JModel :=
  (jupdate jmodelCodec true 0 ⟨1, 1, 9⟩ jstale0).2


theorem alookup_ainsert_self {κ β : Type} [DecidableEq κ] (k : κ) (v : β)
    (l : List (κ × β)) : alookup k (ainsert k v l) = some v := by
  induction l with
  | nil => simp [ainsert, alookup]
  | cons hd tl ih =>
    by_cases h : hd.1 = k <;> simp [ainsert, alookup, h, ih]

theorem ainsert_not_mem {κ β : Type} [DecidableEq κ] (k : κ) (v : β)
    (l : List (κ × β)) (h : k ∉ akeys l) : ainsert k v l = l ++ [(k, v)] := by
  induction l with
  | nil => rfl
  | cons hd tl ih =>
    simp only [akeys, List.map_cons, List.mem_cons] at h
    push_neg at h
    simp [ainsert, Ne.symm h.1, ih (by simpa [akeys] using h.2)]

theorem length_ainsert_not_mem {κ β : Type} [DecidableEq κ] (k : κ) (v : β)
    (l : List (κ × β)) (h : k ∉ akeys l) :
    (ainsert k v l).length = l.length + 1 := by
  rw [ainsert_not_mem k v l h]; simp

theorem ainsert_append_not_mem {κ β : Type} [DecidableEq κ] (k : κ) (v : β)
    (l1 l2 : List (κ × β)) (h : k ∉ akeys l1) :
    ainsert k v (l1 ++ l2) = l1 ++ ainsert k v l2 := by
  induction l1 with
  | nil => rfl
  | cons hd tl ih =>
    simp only [akeys, List.map_cons, List.mem_cons] at h
    push_neg at h
    simp [ainsert, Ne.symm h.1, ih (by simpa [akeys] using h.2)]

theorem aerase_append_not_mem {κ β : Type} [DecidableEq κ] (k : κ)
    (l1 l2 : List (κ × β)) (h : k ∉ akeys l1) :
    aerase k (l1 ++ l2) = l1 ++ aerase k l2 := by
  induction l1 with
  | nil => rfl
  | cons hd tl ih =>
    simp only [akeys, List.map_cons, List.mem_cons] at h
    push_neg at h
    simp [aerase, Ne.symm h.1, ih (by simpa [akeys] using h.2)]

theorem ainsert_cons_self {κ β : Type} [DecidableEq κ] (k : κ) (v v' : β)
    (l : List (κ × β)) : ainsert k v ((k, v') :: l) = (k, v) :: l := by
  simp [ainsert]

theorem aerase_cons_self {κ β : Type} [DecidableEq κ] (k : κ) (v' : β)
    (l : List (κ × β)) : aerase k ((k, v') :: l) = l := by
  simp [aerase]

theorem alookup_append_not_mem {κ β : Type} [DecidableEq κ] (k : κ)
    (l1 l2 : List (κ × β)) (h : k ∉ akeys l1) :
    alookup k (l1 ++ l2) = alookup k l2 := by
  induction l1 with
  | nil => rfl
  | cons hd tl ih =>
    simp only [akeys, List.map_cons, List.mem_cons] at h
    push_neg at h
    simp [alookup, Ne.symm h.1, ih (by simpa [akeys] using h.2)]


theorem alookup_isSome_iff_mem {κ β : Type} [DecidableEq κ] (k : κ)
    (l : List (κ × β)) : (alookup k l).isSome ↔ k ∈ akeys l := by
  induction l with
  | nil => simp [alookup, akeys]
  | cons hd tl ih =>
    by_cases h : hd.1 = k
    · simp [alookup, akeys, h]
    · simp only [alookup, akeys, List.map_cons, List.mem_cons, h, if_false, ih, akeys]
      constructor
      · exact fun hh => Or.inr hh
      · rintro (hh | hh)
        · exact absurd hh.symm h
        · exact hh

/-! ### C1: create followed by read and count -/

/-- C1: for every open identity manager, if `Create(item)` succeeds with
minted identifier `newId` (fresh, as UUIDv7 generation guarantees), then the
returned item is the input after identity and creation-timestamp assignment,
`Read(newId)` immediately returns that same value, and `Count()` grows by
exactly one. -/
theorem create_read_count {α : Type} (c : IdCodec α) (wok : Bool)
    (newId now : Nat) (item : α) (s : MState α) (ret : α)
    (hok : (mcreate c wok newId now item s).1 = .ok ret)
    (hfresh : newId ∉ akeys s.cache) :
    ret = c.setCreatedAt (c.setID item newId) now ∧
    mread newId (mcreate c wok newId now item s).2 = .ok ret ∧
    mcount (mcreate c wok newId now item s).2 = mcount s + 1 := by
  revert hok
  simp only [mcreate]
  split
  · simp
  · split
    · simp
    · intro hok
      replace hok : c.setCreatedAt (c.setID item newId) now = ret := by
        simpa using hok
      subst hok
      refine ⟨rfl, ?_, ?_⟩
      · simp [mread, alookup_ainsert_self]
      · simp [mcount, length_ainsert_not_mem _ _ _ hfresh]

/-- Witness for C1 at a closed input. -/
theorem create_read_count_witness :
    ((mcreate modelCodec true 5 7 ⟨0, 0, 0⟩ (initState Model)).1 =
        .ok ⟨5, 7, 0⟩ ∧ (5 : Nat) ∉ akeys (initState Model).cache) ∧
    ((⟨5, 7, 0⟩ : Model) =
        modelCodec.setCreatedAt (modelCodec.setID ⟨0, 0, 0⟩ 5) 7 ∧
      mread 5 (mcreate modelCodec true 5 7 ⟨0, 0, 0⟩ (initState Model)).2 =
        .ok ⟨5, 7, 0⟩ ∧
      mcount (mcreate modelCodec true 5 7 ⟨0, 0, 0⟩ (initState Model)).2 =
        mcount (initState Model) + 1) :=
  ⟨⟨by decide, by decide⟩,
    create_read_count modelCodec true 5 7 ⟨0, 0, 0⟩ (initState Model)
      ⟨5, 7, 0⟩ (by decide) (by decide)⟩

/-! ### C3: failed mutations leave the caches untouched -/

/-- C3: every `Create`, `Update` or `Delete` call (identity manager) and
every `Create`, `Clone`, `Update` or `Delete` call (relationship manager)
that returns an error — for any reason, including a file-write failure after
the target offset was determined — leaves the whole manager state, in
particular the cache mapping and the parent index, exactly as before the
call. -/
theorem errors_leave_state {α β : Type} (c : IdCodec α) (cj : JoinCodec β) :
    (∀ wok id now item (s : MState α) e,
      (mcreate c wok id now item s).1 = .error e →
        (mcreate c wok id now item s).2 = s) ∧
    (∀ wok now item (s : MState α) e,
      (mupdate c wok now item s).1 = .error e →
        (mupdate c wok now item s).2 = s) ∧
    (∀ wok id (s : MState α) e,
      (mdelete c wok id s).1 = .error e → (mdelete c wok id s).2 = s) ∧
    (∀ wok now item (t : JState β) e,
      (jcreate cj wok now item t).1 = .error e →
        (jcreate cj wok now item t).2 = t) ∧
    (∀ wok item (t : JState β) e,
      (jclone cj wok item t).1 = .error e → (jclone cj wok item t).2 = t) ∧
    (∀ wok now item (t : JState β) e,
      (jupdate cj wok now item t).1 = .error e →
        (jupdate cj wok now item t).2 = t) ∧
    (∀ wok key (t : JState β) e,
      (jdelete cj wok key t).1 = .error e → (jdelete cj wok key t).2 = t) := by
  refine ⟨?_, ?_, ?_, ?_, ?_, ?_, ?_⟩
  · intro wok id now item s e
    simp only [mcreate]
    split
    · simp
    · split <;> simp
  · intro wok now item s e
    simp only [mupdate]
    split
    · simp
    · split
      · simp
      · split <;> simp
  · intro wok id s e
    simp only [mdelete]
    split
    · simp
    · split
      · simp
      · split <;> simp
  · intro wok now item t e
    simp only [jcreate]
    split
    · simp
    · split
      · simp
      · split <;> simp
  · intro wok item t e
    simp only [jclone]
    split
    · simp
    · split
      · simp
      · split <;> simp
  · intro wok now item t e
    simp only [jupdate]
    split
    · simp
    · split
      · simp
      · split <;> simp
  · intro wok key t e
    simp only [jdelete]
    split
    · simp
    · split
      · simp
      · split <;> simp

/-- Witness for C3: a create on a closed identity manager and a delete of an
absent key on a relationship manager both fail and leave the state intact. -/
theorem errors_leave_state_witness :
    (mcreate modelCodec true 1 1 ⟨0, 0, 0⟩
        { initState Model with closed := true }).2 =
      { initState Model with closed := true } ∧
    (jdelete jmodelCodec true [61] (jinitState JModel)).2 =
      jinitState JModel :=
  ⟨(errors_leave_state modelCodec jmodelCodec).1 true 1 1 ⟨0, 0, 0⟩
      { initState Model with closed := true } .closedMgr (by decide),
    (errors_leave_state modelCodec jmodelCodec).2.2.2.2.2.2 true [61]
      (jinitState JModel) .notFound (by decide)⟩

/-! ### C6: capacity boundary -/

/-- C6: writing or updating succeeds at a payload of exactly
`recordSize - 1` bytes, fails with a capacity error exactly when the payload
exceeds `recordSize - 1` bytes (Go `int` arithmetic), and on success the
whole payload is stored in the slot — never silently truncated. -/
theorem capacity_boundary (rs : Nat) (file data : List Nat) (off : Nat) :
    ((data.length : Int) = (rs : Int) - 1 →
      FileHandler.WriteRecord rs true file data =
        .ok (file.length, file ++ mkSlot rs data) ∧
      FileHandler.UpdateRecord rs true file off data =
        .ok (writeAt file off (mkSlot rs data))) ∧
    (∀ wok, FileHandler.WriteRecord rs wok file data = .error .capacity ↔
      (data.length : Int) > (rs : Int) - 1) ∧
    (∀ wok, FileHandler.UpdateRecord rs wok file off data = .error .capacity ↔
      (data.length : Int) > (rs : Int) - 1) ∧
    (∀ wok o f', FileHandler.WriteRecord rs wok file data = .ok (o, f') →
      (f'.drop (o + 1)).take data.length = data) := by
  refine ⟨?_, ?_, ?_, ?_⟩
  · intro hlen
    have hng : ¬ ((data.length : Int) > (rs : Int) - 1) := by omega
    simp [FileHandler.WriteRecord, FileHandler.UpdateRecord, hng]
  · intro wok
    constructor
    · intro h
      by_cases hg : (data.length : Int) > (rs : Int) - 1
      · exact hg
      · simp only [FileHandler.WriteRecord, hg, if_false] at h
        cases wok <;> simp_all
    · intro hg
      simp [FileHandler.WriteRecord, hg]
  · intro wok
    constructor
    · intro h
      by_cases hg : (data.length : Int) > (rs : Int) - 1
      · exact hg
      · simp only [FileHandler.UpdateRecord, hg, if_false] at h
        cases wok <;> simp_all
    · intro hg
      simp [FileHandler.UpdateRecord, hg]
  · intro wok o f' h
    by_cases hg : (data.length : Int) > (rs : Int) - 1
    · simp [FileHandler.WriteRecord, hg] at h
    · simp only [FileHandler.WriteRecord, hg, if_false] at h
      cases wok
      · simp at h
      · simp only [if_true] at h
        obtain ⟨ho, hf⟩ : file.length = o ∧ file ++ mkSlot rs data = f' := by
          simpa using h
        subst ho
        rw [← hf]
        have hsplit : file ++ mkSlot rs data =
            (file ++ [StatusActive]) ++
              (data ++ List.replicate (rs - 1 - data.length) 0) := by
          simp [mkSlot]
        have hlen1 : file.length + 1 = (file ++ [StatusActive]).length := by simp
        rw [hsplit, hlen1, List.drop_left, List.take_left]

/-- Witness for C6 at a closed input (`recordSize` 4, payload 3 bytes). -/
theorem capacity_boundary_witness :
    FileHandler.WriteRecord 4 true [] [7, 7, 7] = .ok (0, [0, 7, 7, 7]) ∧
    FileHandler.WriteRecord 4 true [] [7, 7, 7, 7] = .error .capacity :=
  ⟨by
      have h := (capacity_boundary 4 [] [7, 7, 7] 0).1 (by decide)
      simpa [mkSlot, StatusActive] using h.1,
    by
      have h := (capacity_boundary 4 [] [7, 7, 7, 7] 0).2.1 true
      exact h.mpr (by decide)⟩

/-! ### C9: close is idempotent at the manager level -/

/-- C9: for both managers, a second `Close` after a `Close` returns nil and
changes nothing — in particular it does not attempt to close the underlying
file handle again (which would error), because the `closed` flag gates the
teardown. -/
theorem close_idempotent {α β : Type} (s : MState α) (t : JState β) :
    (mclose (mclose s).2).1 = .ok () ∧ (mclose (mclose s).2).2 = (mclose s).2 ∧
    (jclose (jclose t).2).1 = .ok () ∧
    (jclose (jclose t).2).2 = (jclose t).2 := by
  by_cases hs : s.closed <;> by_cases ht : t.closed <;>
    simp [mclose, jclose, hs, ht]

/-! ### Payload-terminator scanning lemmas -/

theorem findIdx?_zero_free_append : ∀ (data : List Nat) (m i : Nat),
    0 ∉ data →
    (data ++ List.replicate m 0).findIdx? (fun b => b == 0) i =
      if m = 0 then none else some (i + data.length)
  | [], m, i, _ => by
      cases m with
      | zero => simp
      | succ mm => simp [List.replicate_succ, List.findIdx?_cons]
  | a :: tl, m, i, hnz => by
      have hmem : ¬(0 = a ∨ 0 ∈ tl) := by simpa using hnz
      push_neg at hmem
      have ha : (a == 0) = false := by
        simp only [beq_eq_false_iff_ne, ne_eq]
        exact fun h => hmem.1 h.symm
      rw [List.cons_append, List.findIdx?_cons, ha]
      simp only [Bool.false_eq_true, if_false]
      rw [findIdx?_zero_free_append tl m (i + 1) hmem.2]
      by_cases hm : m = 0
      · simp [hm]
      · simp only [hm, if_false, List.length_cons]
        congr 1
        omega

theorem takeWhile_of_findIdx?_none : ∀ (l : List Nat) (i : Nat),
    l.findIdx? (fun b => b == 0) i = none →
      l.takeWhile (fun b => b != 0) = l
  | [], _, _ => rfl
  | a :: tl, i, h => by
      rw [List.findIdx?_cons] at h
      by_cases ha : (a == 0) = true
      · rw [ha] at h; simp at h
      · have ha2 : (a != 0) = true := by
          simpa [bne_iff_ne] using ha
        simp only [ha, Bool.false_eq_true, if_false] at h
        rw [List.takeWhile_cons, ha2]
        simp only [if_true]
        rw [takeWhile_of_findIdx?_none tl (i + 1) h]

theorem takeWhile_of_findIdx?_some : ∀ (l : List Nat) (i n : Nat),
    l.findIdx? (fun b => b == 0) i = some n →
      i ≤ n ∧ l.takeWhile (fun b => b != 0) = l.take (n - i)
  | [], i, n, h => by simp at h
  | a :: tl, i, n, h => by
      rw [List.findIdx?_cons] at h
      by_cases ha : (a == 0) = true
      · rw [ha] at h
        simp only [if_true, Option.some.injEq] at h
        subst h
        have ha2 : (a != 0) = false := by simpa using ha
        rw [List.takeWhile_cons, ha2]
        simp
      · have ha2 : (a != 0) = true := by simpa [bne_iff_ne] using ha
        simp only [ha, Bool.false_eq_true, if_false] at h
        obtain ⟨hle, htw⟩ := takeWhile_of_findIdx?_some tl (i + 1) n h
        constructor
        · omega
        · rw [List.takeWhile_cons, ha2]
          simp only [if_true]
          rw [htw]
          have : n - i = (n - (i + 1)) + 1 := by omega
          rw [this, List.take_succ_cons]

/-- For the default start index, a hit at position 0 means the head byte is
the zero terminator. -/
theorem findIdx?_eq_some_zero_iff (l : List Nat) :
    l.findIdx? (fun b => b == 0) = some 0 ↔ l[0]? = some 0 := by
  cases l with
  | nil => simp
  | cons b rest =>
    rw [List.findIdx?_cons]
    by_cases hb : (b == 0) = true
    · have : b = 0 := by simpa using hb
      subst this
      simp [hb]
    · simp only [hb, Bool.false_eq_true, if_false]
      constructor
      · intro h
        have := (takeWhile_of_findIdx?_some rest 1 0 h).1
        omega
      · intro h
        have : b = 0 := by simpa using h
        exact absurd (by simpa using this : (b == 0) = true) hb

/-- Reading back a freshly built slot recovers exactly the payload, provided
the payload is nonempty, fits the slot and holds no zero byte. -/
theorem readChunk_mkSlot (rs : Nat) (data : List Nat)
    (hlen1 : 1 ≤ data.length) (hlen2 : data.length ≤ rs - 1)
    (hnz : 0 ∉ data) : readChunk rs (mkSlot rs data) = .ok data := by
  have hrs : 2 ≤ rs := by omega
  have hslot : (mkSlot rs data).length = rs := by
    simp only [mkSlot, List.length_cons, List.length_append,
      List.length_replicate]
    omega
  simp only [readChunk, hslot]
  rw [if_neg (by omega)]
  rw [Nat.sub_self, List.replicate_zero, List.append_nil]
  have hhead : (mkSlot rs data).headD 0 = StatusActive := rfl
  rw [hhead]
  rw [if_neg (by simp [StatusActive, StatusDeleted])]
  have hdrop : (mkSlot rs data).drop 1 =
      data ++ List.replicate (rs - 1 - data.length) 0 := rfl
  rw [hdrop, findIdx?_zero_free_append data (rs - 1 - data.length) 0 hnz]
  by_cases hm : rs - 1 - data.length = 0
  · have hdl : data.length = rs - 1 := by omega
    simp only [hm, if_true]
    rw [List.replicate_zero, List.append_nil, ← hdl, List.take_length]
  · simp only [hm, if_false, Nat.zero_add]
    obtain ⟨d, hd⟩ : ∃ d, data.length = d + 1 := ⟨data.length - 1, by omega⟩
    rw [hd]
    show Except.ok ((data ++
        List.replicate (rs - 1 - (d + 1)) 0).take (d + 1)) = Except.ok data
    rw [← hd, List.take_left]

/-! ### C5: write/read round trip -/

/-- C5: for any payload of 1 to `recordSize - 1` bytes containing no zero
byte, `WriteRecord` appends an active slot at end of file and `ReadRecord`
at the returned offset yields exactly the payload; consequently a serialized
item that deserializes to itself is reproduced by
serialize → write → read → deserialize. -/
theorem write_read_roundtrip (rs : Nat) (file data : List Nat)
    (hlen1 : 1 ≤ data.length) (hlen2 : data.length ≤ rs - 1)
    (hnz : 0 ∉ data) :
    FileHandler.WriteRecord rs true file data =
      .ok (file.length, file ++ mkSlot rs data) ∧
    FileHandler.ReadRecord rs (file ++ mkSlot rs data) (file.length : Int) =
      .ok data ∧
    (∀ (α : Type) (c : IdCodec α) (item : α), c.unmarshal data = some item →
      (FileHandler.ReadRecord rs (file ++ mkSlot rs data)
          (file.length : Int)).toOption.bind c.unmarshal = some item) := by
  have hrs : 2 ≤ rs := by omega
  have hread : FileHandler.ReadRecord rs (file ++ mkSlot rs data)
      (file.length : Int) = .ok data := by
    simp only [FileHandler.ReadRecord]
    rw [if_neg (by omega)]
    have htn : ((file.length : Int)).toNat = file.length := Int.toNat_natCast _
    rw [htn, List.drop_left]
    have hslot : (mkSlot rs data).length = rs := by
      simp only [mkSlot, List.length_cons, List.length_append,
        List.length_replicate]
      omega
    rw [List.take_of_length_le (le_of_eq hslot)]
    exact readChunk_mkSlot rs data hlen1 hlen2 hnz
  refine ⟨?_, hread, ?_⟩
  · simp only [FileHandler.WriteRecord]
    rw [if_neg (by push_cast; omega)]
    simp
  · intro α c item hun
    rw [hread]
    simpa using hun

/-- Witness for C5 at a closed input. -/
theorem write_read_roundtrip_witness :
    (1 ≤ ([2, 3] : List Nat).length ∧ ([2, 3] : List Nat).length ≤ 4 - 1 ∧
      0 ∉ ([2, 3] : List Nat)) ∧
    (FileHandler.WriteRecord 4 true [9, 9, 9, 9] [2, 3] =
        .ok (4, [9, 9, 9, 9] ++ mkSlot 4 [2, 3]) ∧
      FileHandler.ReadRecord 4 ([9, 9, 9, 9] ++ mkSlot 4 [2, 3])
          ((4 : Nat) : Int) = .ok [2, 3]) :=
  ⟨⟨by decide, by decide, by decide⟩, by
    have h := write_read_roundtrip 4 [9, 9, 9, 9] [2, 3] (by decide)
      (by decide) (by decide)
    exact ⟨h.1, h.2.1⟩⟩

/-! ### C8: the exact read-error conditions -/

/-- Characterization of `readChunk` on a nonempty chunk: it errors exactly
on a deleted status byte or a zero first payload byte, and otherwise returns
the padded buffer's payload truncated at the first zero byte. -/
theorem readChunk_spec (rs : Nat) (chunk : List Nat)
    (hc0 : ¬ chunk.length = 0) (hcle : chunk.length ≤ rs) :
    ((∃ e, readChunk rs chunk = .error e) ↔
      ((chunk ++ List.replicate (rs - chunk.length) 0).headD 0 =
          StatusDeleted ∨
        (chunk ++ List.replicate (rs - chunk.length) 0)[1]? = some 0)) ∧
    (∀ r, readChunk rs chunk = .ok r →
      r = ((chunk ++ List.replicate (rs - chunk.length) 0).drop 1).takeWhile
        (fun b => b != 0)) := by
  have hrc : readChunk rs chunk =
      (if (chunk ++ List.replicate (rs - chunk.length) 0).headD 0 =
          StatusDeleted
        then Except.error Err.deletedSlot
        else
          match ((chunk ++ List.replicate (rs - chunk.length) 0).drop 1).findIdx?
              (fun b => b == 0) with
          | none =>
              Except.ok
                (((chunk ++ List.replicate (rs - chunk.length) 0).drop 1).take
                  (rs - 1))
          | some 0 => Except.error Err.emptyData
          | some (d + 1) =>
              Except.ok
                (((chunk ++ List.replicate (rs - chunk.length) 0).drop 1).take
                  (d + 1))) := by
    simp only [readChunk, hc0, if_false]
  by_cases hdel : (chunk ++ List.replicate (rs - chunk.length) 0).headD 0 =
      StatusDeleted
  · rw [if_pos hdel] at hrc
    exact ⟨⟨fun _ => Or.inl hdel, fun _ => ⟨.deletedSlot, hrc⟩⟩,
      fun r hr => absurd (hrc ▸ hr) (by simp)⟩
  · rw [if_neg hdel] at hrc
    cases hfi : ((chunk ++ List.replicate (rs - chunk.length) 0).drop 1).findIdx?
        (fun b => b == 0) with
    | none =>
      rw [hfi] at hrc
      have htw := takeWhile_of_findIdx?_none _ 0 hfi
      have hz : ¬ ((chunk ++ List.replicate (rs - chunk.length) 0)[1]? =
          some 0) := by
        intro h0
        have h1 : ((chunk ++ List.replicate (rs - chunk.length) 0).drop 1)[0]? =
            some 0 := by
          simpa [List.getElem?_drop] using h0
        rw [← findIdx?_eq_some_zero_iff, hfi] at h1
        exact Option.noConfusion h1
      refine ⟨⟨fun he => ?_, fun hcond => ?_⟩, fun r hr => ?_⟩
      · obtain ⟨e, he⟩ := he
        rw [hrc] at he
        exact absurd he (by simp)
      · rcases hcond with h1 | h1
        · exact absurd h1 hdel
        · exact absurd h1 hz
      · rw [hrc] at hr
        replace hr := Except.ok.inj hr.symm
        rw [htw, hr]
        have hlen2 : ((chunk ++
            List.replicate (rs - chunk.length) 0).drop 1).length = rs - 1 := by
          simp only [List.length_drop, List.length_append,
            List.length_replicate]
          omega
        rw [← hlen2, List.take_length]
    | some n =>
      rw [hfi] at hrc
      cases n with
      | zero =>
        have hz : (chunk ++ List.replicate (rs - chunk.length) 0)[1]? =
            some 0 := by
          have h1 := (findIdx?_eq_some_zero_iff _).mp hfi
          simpa [List.getElem?_drop] using h1
        exact ⟨⟨fun _ => Or.inr hz, fun _ => ⟨.emptyData, hrc⟩⟩,
          fun r hr => absurd (hrc ▸ hr) (by simp)⟩
      | succ d =>
        obtain ⟨hle1, htw⟩ := takeWhile_of_findIdx?_some _ 0 (d + 1) hfi
        have hz : ¬ ((chunk ++ List.replicate (rs - chunk.length) 0)[1]? =
            some 0) := by
          intro h0
          have h1 : ((chunk ++ List.replicate (rs - chunk.length) 0).drop 1)[0]? =
              some 0 := by
            simpa [List.getElem?_drop] using h0
          rw [← findIdx?_eq_some_zero_iff, hfi] at h1
          simp at h1
        refine ⟨⟨fun he => ?_, fun hcond => ?_⟩, fun r hr => ?_⟩
        · obtain ⟨e, he⟩ := he
          rw [hrc] at he
          exact absurd he (by simp)
        · rcases hcond with h1 | h1
          · exact absurd h1 hdel
          · exact absurd h1 hz
        · rw [hrc] at hr
          replace hr := Except.ok.inj hr.symm
          rw [htw, hr]
          simp

/-- C8: for a positive record size, `ReadRecord` fails exactly when the
offset is negative, nothing can be read at the offset (the only I/O failure
of the model), the slot's status byte is `Deleted`, or the payload is empty
(the first byte after the status byte in the read buffer is the zero
terminator); otherwise it returns the buffer's payload bytes truncated at the
first zero byte — the full `recordSize - 1` bytes when no zero occurs. -/
theorem read_record_spec (rs : Nat) (file : List Nat) (offset : Int)
    (hrs : 1 ≤ rs) :
    ((∃ e, FileHandler.ReadRecord rs file offset = .error e) ↔
      (offset < 0 ∨ (file.length : Int) ≤ offset ∨
        (readBuf rs file offset.toNat).headD 0 = StatusDeleted ∨
        (readBuf rs file offset.toNat)[1]? = some 0)) ∧
    (∀ r, FileHandler.ReadRecord rs file offset = .ok r →
      r = ((readBuf rs file offset.toNat).drop 1).takeWhile
        (fun b => b != 0)) := by
  by_cases hneg : offset < 0
  · constructor
    · simp [FileHandler.ReadRecord, hneg]
    · intro r hr
      simp [FileHandler.ReadRecord, hneg] at hr
  · have hofs : ((offset.toNat : Nat) : Int) = offset :=
      Int.toNat_of_nonneg (by omega)
    have hrr : FileHandler.ReadRecord rs file offset =
        readChunk rs ((file.drop offset.toNat).take rs) := by
      simp [FileHandler.ReadRecord, hneg]
    by_cases hend : file.length ≤ offset.toNat
    · have hc0 : (file.drop offset.toNat).take rs = [] := by
        rw [List.drop_eq_nil_of_le hend, List.take_nil]
      have herr : FileHandler.ReadRecord rs file offset = .error .noData := by
        rw [hrr, hc0]
        rfl
      constructor
      · constructor
        · intro _
          right; left
          omega
        · intro _
          exact ⟨.noData, herr⟩
      · intro r hr
        rw [herr] at hr
        exact absurd hr (by simp)
    · have hc0 : ¬ ((file.drop offset.toNat).take rs).length = 0 := by
        rw [List.length_take, List.length_drop]
        have h1 : 0 < file.length - offset.toNat := by omega
        intro hmin
        rcases Nat.min_eq_zero_iff.mp hmin with h | h <;> omega
      obtain ⟨hiff, hval⟩ := readChunk_spec rs ((file.drop offset.toNat).take rs)
        hc0 (by rw [List.length_take]; exact Nat.min_le_left _ _)
      have hbufeq : readBuf rs file offset.toNat =
          (file.drop offset.toNat).take rs ++
            List.replicate (rs - ((file.drop offset.toNat).take rs).length) 0 :=
        rfl
      constructor
      · rw [hrr, hiff, hbufeq]
        constructor
        · intro h
          right; right
          exact h
        · rintro (h1 | h1 | h1 | h1)
          · omega
          · omega
          · exact Or.inl h1
          · exact Or.inr h1
      · intro r hr
        rw [hbufeq]
        exact hval r (by rw [← hrr]; exact hr)

/-- Witness for C8 at a closed input: a deleted slot. -/
theorem read_record_spec_witness :
    ((∃ e, FileHandler.ReadRecord 2 [1, 7] 0 = .error e) ↔
      ((0 : Int) < 0 ∨ ((2 : Nat) : Int) ≤ 0 ∨
        (readBuf 2 [1, 7] (Int.toNat 0)).headD 0 = StatusDeleted ∨
        (readBuf 2 [1, 7] (Int.toNat 0))[1]? = some 0)) :=
  (read_record_spec 2 [1, 7] 0 (by decide)).1

/-! ### C10: zero-length payloads — counterexample and amended claim -/

/-- C10 counterexample: with `recordSize = 1` the claim fails — a zero-length
payload write succeeds, and `ReadRecord` at its offset returns an empty
payload with no error at all (the `dataLength == -1` branch sets the length
to `recordSize - 1 = 0` and skips the empty check). -/
theorem empty_payload_readable_rs_one :
    FileHandler.WriteRecord 1 true [] [] = .ok (0, [0]) ∧
    FileHandler.ReadRecord 1 [0] 0 = .ok [] := by
  constructor <;> rfl

/-! ### Slot decomposition of well-formed files -/

theorem chunks_nil (rs : Nat) : chunks rs [] = [] := by
  rw [chunks]
  simp

theorem chunks_cons (rs : Nat) (hrs : 1 ≤ rs) (l : List Nat) (hl : l ≠ []) :
    chunks rs l = l.take rs :: chunks rs (l.drop rs) := by
  rw [chunks]
  rw [dif_neg (by push_neg; exact ⟨by omega, hl⟩)]

theorem chunks_singleton (rs : Nat) (hrs : 1 ≤ rs) (slot : List Nat)
    (hlen : slot.length = rs) : chunks rs slot = [slot] := by
  have hne : slot ≠ [] := by
    intro h
    subst h
    simp at hlen
    omega
  rw [chunks_cons rs hrs slot hne, List.take_of_length_le (le_of_eq hlen),
    List.drop_eq_nil_of_le (le_of_eq hlen), chunks_nil]

theorem chunks_append (rs : Nat) (hrs : 1 ≤ rs) :
    ∀ (k : Nat) (a b : List Nat), a.length = rs * k →
      chunks rs (a ++ b) = chunks rs a ++ chunks rs b := by
  intro k
  induction k with
  | zero =>
    intro a b hlen
    have ha : a = [] := List.eq_nil_of_length_eq_zero (by omega)
    subst ha
    simp [chunks_nil]
  | succ k ih =>
    intro a b hlen
    rw [Nat.mul_succ] at hlen
    have ha : a ≠ [] := by
      intro h
      subst h
      simp at hlen
      omega
    have hle : rs ≤ a.length := by omega
    by_cases hb : b = []
    · subst hb
      simp [chunks_nil]
    · have hab : a ++ b ≠ [] := by simp [ha]
      rw [chunks_cons rs hrs (a ++ b) hab, chunks_cons rs hrs a ha]
      rw [List.take_append_of_le_length hle, List.drop_append_of_le_length hle]
      rw [List.cons_append]
      congr 1
      exact ih (a.drop rs) b (by rw [List.length_drop]; omega)

theorem chunks_flatten_of_uniform (rs : Nat) (hrs : 1 ≤ rs) :
    ∀ (S : List (List Nat)), (∀ sl ∈ S, sl.length = rs) →
      chunks rs S.flatten = S
  | [], _ => by simp [chunks_nil]
  | slot :: S, huni => by
      have hslot : slot.length = rs := huni slot (List.mem_cons_self _ _)
      rw [List.flatten_cons]
      rw [chunks_append rs hrs 1 slot S.flatten (by omega)]
      rw [chunks_singleton rs hrs slot hslot]
      rw [chunks_flatten_of_uniform rs hrs S
        (fun sl hsl => huni sl (List.mem_cons_of_mem _ hsl))]
      rfl

theorem length_flatten_of_uniform (rs : Nat) :
    ∀ (S : List (List Nat)), (∀ sl ∈ S, sl.length = rs) →
      S.flatten.length = S.length * rs
  | [], _ => by simp
  | slot :: S, huni => by
      rw [List.flatten_cons, List.length_append,
        huni slot (List.mem_cons_self _ _),
        length_flatten_of_uniform rs S
          (fun sl hsl => huni sl (List.mem_cons_of_mem _ hsl))]
      simp [List.length_cons]
      ring

/-- Overwriting one whole slot of a slot-decomposed file. -/
theorem writeAt_slot (rs : Nat) (S1 S2 : List (List Nat))
    (slot new : List Nat) (huni : ∀ sl ∈ S1, sl.length = rs)
    (hslot : slot.length = rs) (hnew : new.length = rs) :
    writeAt ((S1 ++ slot :: S2).flatten) (S1.length * rs) new =
      (S1 ++ new :: S2).flatten := by
  have hj1 : S1.flatten.length = S1.length * rs :=
    length_flatten_of_uniform rs S1 huni
  have hfile : (S1 ++ slot :: S2).flatten =
      S1.flatten ++ (slot ++ S2.flatten) := by
    rw [List.flatten_append, List.flatten_cons]
  rw [writeAt, hfile, ← hj1, List.take_left]
  have hlen : S1.flatten.length ≤
      (S1.flatten ++ (slot ++ S2.flatten)).length := by simp
  rw [Nat.sub_eq_zero_of_le hlen, List.replicate_zero]
  have hdrop : (S1.flatten ++ (slot ++ S2.flatten)).drop
      (S1.flatten.length + new.length) = S2.flatten := by
    rw [hnew, ← hslot]
    rw [show S1.flatten.length + slot.length =
      (S1.flatten ++ slot).length from by simp]
    rw [← List.append_assoc, List.drop_left]
  rw [hdrop]
  simp [List.flatten_append, List.flatten_cons]

/-- Tombstoning the status byte of one slot of a slot-decomposed file. -/
theorem writeAt_tomb (rs : Nat) (hrs : 1 ≤ rs) (S1 S2 : List (List Nat))
    (slot : List Nat) (huni : ∀ sl ∈ S1, sl.length = rs)
    (hslot : slot.length = rs) :
    writeAt ((S1 ++ slot :: S2).flatten) (S1.length * rs) [StatusDeleted] =
      (S1 ++ (StatusDeleted :: slot.drop 1) :: S2).flatten := by
  have hj1 : S1.flatten.length = S1.length * rs :=
    length_flatten_of_uniform rs S1 huni
  have hfile : (S1 ++ slot :: S2).flatten =
      S1.flatten ++ (slot ++ S2.flatten) := by
    rw [List.flatten_append, List.flatten_cons]
  rw [writeAt, hfile, ← hj1, List.take_left]
  have hlen : S1.flatten.length ≤
      (S1.flatten ++ (slot ++ S2.flatten)).length := by simp
  rw [Nat.sub_eq_zero_of_le hlen, List.replicate_zero]
  have hslot1 : 1 ≤ slot.length := by omega
  have hdrop : (S1.flatten ++ (slot ++ S2.flatten)).drop
      (S1.flatten.length + 1) = slot.drop 1 ++ S2.flatten := by
    rw [List.drop_append 1]
    rw [List.drop_append_of_le_length hslot1]
  have hlen1 : ([StatusDeleted] : List Nat).length = 1 := rfl
  rw [show ([StatusDeleted] : List Nat).length = 1 from rfl] at *
  rw [hdrop]
  simp [List.flatten_append, List.flatten_cons]

theorem flatten_chunks (rs : Nat) (hrs : 1 ≤ rs) :
    ∀ (k : Nat) (l : List Nat), l.length = rs * k →
      (chunks rs l).flatten = l := by
  intro k
  induction k with
  | zero =>
    intro l hlen
    have : l = [] := List.eq_nil_of_length_eq_zero (by omega)
    subst this
    simp [chunks_nil]
  | succ k ih =>
    intro l hlen
    rw [Nat.mul_succ] at hlen
    have hl : l ≠ [] := by
      intro h
      subst h
      simp at hlen
      omega
    rw [chunks_cons rs hrs l hl, List.flatten_cons,
      ih (l.drop rs) (by rw [List.length_drop]; omega),
      List.take_append_drop]

theorem chunks_uniform (rs : Nat) (hrs : 1 ≤ rs) :
    ∀ (k : Nat) (l : List Nat), l.length = rs * k →
      ∀ sl ∈ chunks rs l, sl.length = rs := by
  intro k
  induction k with
  | zero =>
    intro l hlen sl hsl
    have : l = [] := List.eq_nil_of_length_eq_zero (by omega)
    subst this
    rw [chunks_nil] at hsl
    simp at hsl
  | succ k ih =>
    intro l hlen sl hsl
    rw [Nat.mul_succ] at hlen
    have hl : l ≠ [] := by
      intro h
      subst h
      simp at hlen
      omega
    rw [chunks_cons rs hrs l hl] at hsl
    rcases List.mem_cons.mp hsl with h | h
    · subst h
      rw [List.length_take]
      exact Nat.min_eq_left (by omega)
    · exact ih (l.drop rs) (by rw [List.length_drop]; omega) sl h

/-! ### Success inversion of the file operations -/

theorem WriteRecord_ok (rs : Nat) (wok : Bool) (file data : List Nat)
    (o : Nat) (f' : List Nat)
    (h : FileHandler.WriteRecord rs wok file data = .ok (o, f')) :
    data.length ≤ rs - 1 ∧ 1 ≤ rs ∧ o = file.length ∧
      f' = file ++ mkSlot rs data := by
  by_cases hcap : (data.length : Int) > (rs : Int) - 1
  · simp [FileHandler.WriteRecord, hcap] at h
  · cases wok with
    | false => simp [FileHandler.WriteRecord, hcap] at h
    | true =>
      simp only [FileHandler.WriteRecord, hcap, if_false, if_true] at h
      obtain ⟨h1, h2⟩ := Prod.ext_iff.mp (Except.ok.inj h)
      exact ⟨by omega, by omega, h1.symm, h2.symm⟩

theorem UpdateRecord_ok (rs : Nat) (wok : Bool) (file : List Nat) (off : Nat)
    (data f' : List Nat)
    (h : FileHandler.UpdateRecord rs wok file off data = .ok f') :
    data.length ≤ rs - 1 ∧ 1 ≤ rs ∧ f' = writeAt file off (mkSlot rs data) := by
  by_cases hcap : (data.length : Int) > (rs : Int) - 1
  · simp [FileHandler.UpdateRecord, hcap] at h
  · cases wok with
    | false => simp [FileHandler.UpdateRecord, hcap] at h
    | true =>
      simp only [FileHandler.UpdateRecord, hcap, if_false, if_true] at h
      exact ⟨by omega, by omega, (Except.ok.inj h).symm⟩

theorem DeleteRecord_ok (wok : Bool) (file : List Nat) (off : Nat)
    (f' : List Nat) (h : FileHandler.DeleteRecord wok file off = .ok f') :
    f' = writeAt file off [StatusDeleted] := by
  cases wok with
  | false => simp [FileHandler.DeleteRecord] at h
  | true =>
    simp only [FileHandler.DeleteRecord, if_true] at h
    exact (Except.ok.inj h).symm

/-! ### Decoding the three slot shapes -/

theorem decodeSlot_mkSlot {α : Type} (c : IdCodec α) (hrt : GoodCodec c)
    (x : α) (hfit : (c.marshal x).length ≤ c.recordSize - 1) :
    decodeSlot c (mkSlot c.recordSize (c.marshal x)) = some x := by
  rw [decodeSlot, readChunk_mkSlot c.recordSize (c.marshal x)
    (hrt.marshal_pos x) hfit (hrt.marshal_nz x)]
  simp [Except.toOption, hrt.roundtrip x]

theorem decodeSlot_deleted {α : Type} (c : IdCodec α) (rest : List Nat) :
    decodeSlot c (StatusDeleted :: rest) = none := by
  rw [decodeSlot]
  have hrc : readChunk c.recordSize (StatusDeleted :: rest) =
      .error .deletedSlot := by
    rw [readChunk]
    rw [if_neg (by simp)]
    rw [if_pos (by simp [List.cons_append, StatusDeleted])]
  rw [hrc]
  rfl

/-! ### Slot-level views of the scan loops -/

theorem slotLoad_eq_append {α : Type} (c : IdCodec α) :
    ∀ (slots : List (List Nat)) (acc : List (Nat × α)),
      (∀ i ∈ (slots.filterMap (decodeSlot c)).map c.getID, i ∉ akeys acc) →
      ((slots.filterMap (decodeSlot c)).map c.getID).Nodup →
      slotLoad c acc slots =
        acc ++ (slots.filterMap (decodeSlot c)).map (fun a => (c.getID a, a))
  | [], acc, _, _ => by simp [slotLoad]
  | slot :: rest, acc, hdisj, hnodup => by
      rw [slotLoad]
      cases hdec : decodeSlot c slot with
      | none =>
        have hfm : (slot :: rest).filterMap (decodeSlot c) =
            rest.filterMap (decodeSlot c) := by
          rw [List.filterMap_cons, hdec]
        rw [hfm] at hdisj hnodup
        dsimp only
        rw [slotLoad_eq_append c rest acc hdisj hnodup, hfm]
      | some item =>
        have hfm : (slot :: rest).filterMap (decodeSlot c) =
            item :: rest.filterMap (decodeSlot c) := by
          rw [List.filterMap_cons, hdec]
        rw [hfm] at hdisj hnodup
        have hid : c.getID item ∉ akeys acc :=
          hdisj _ (by simp)
        have hnotin : c.getID item ∉
            (rest.filterMap (decodeSlot c)).map c.getID := by
          have := hnodup
          simp only [List.map_cons, List.nodup_cons] at this
          exact this.1
        dsimp only
        rw [ainsert_not_mem _ _ _ hid]
        rw [slotLoad_eq_append c rest (acc ++ [(c.getID item, item)])
          (by
            intro i hi
            simp only [akeys, List.map_append, List.mem_append] at *
            push_neg
            constructor
            · exact hdisj i (by simp [hi])
            · intro hcon
              simp at hcon
              subst hcon
              exact hnotin hi)
          (by
            simp only [List.map_cons, List.nodup_cons] at hnodup
            exact hnodup.2)]
        rw [hfm]
        simp

theorem slotFind_some {α : Type} (c : IdCodec α) (id : Nat) :
    ∀ (slots : List (List Nat)) (j : Nat), slotFind c id slots = some j →
      ∃ S1 slot S2 a, slots = S1 ++ slot :: S2 ∧ S1.length = j ∧
        decodeSlot c slot = some a ∧ c.getID a = id
  | [], j, h => by rw [slotFind] at h; exact absurd h (by simp)
  | slot :: rest, j, h => by
      rw [slotFind] at h
      cases hdec : decodeSlot c slot with
      | some item =>
        rw [hdec] at h
        dsimp only at h
        by_cases hid : c.getID item = id
        · rw [if_pos hid] at h
          have hj : j = 0 := (Option.some.inj h).symm
          subst hj
          exact ⟨[], slot, rest, item, rfl, rfl, hdec, hid⟩
        · rw [if_neg hid] at h
          cases hr : slotFind c id rest with
          | none => rw [hr] at h; exact absurd h (by simp)
          | some j' =>
            rw [hr] at h
            have hj : j = j' + 1 := by simpa using h.symm
            subst hj
            obtain ⟨S1, sl, S2, a, h1, h2, h3, h4⟩ := slotFind_some c id rest j' hr
            exact ⟨slot :: S1, sl, S2, a, by rw [h1]; rfl, by simp [h2], h3,
              h4⟩
      | none =>
        rw [hdec] at h
        dsimp only at h
        cases hr : slotFind c id rest with
        | none => rw [hr] at h; exact absurd h (by simp)
        | some j' =>
          rw [hr] at h
          have hj : j = j' + 1 := by simpa using h.symm
          subst hj
          obtain ⟨S1, sl, S2, a, h1, h2, h3, h4⟩ := slotFind_some c id rest j' hr
          exact ⟨slot :: S1, sl, S2, a, by rw [h1]; rfl, by simp [h2], h3, h4⟩

theorem slotFind_complete {α : Type} (c : IdCodec α) (id : Nat) :
    ∀ (slots : List (List Nat)),
      id ∈ (slots.filterMap (decodeSlot c)).map c.getID →
      ∃ j, slotFind c id slots = some j
  | [], h => by simp at h
  | slot :: rest, h => by
      rw [slotFind]
      cases hdec : decodeSlot c slot with
      | some item =>
        by_cases hid : c.getID item = id
        · exact ⟨0, by dsimp only; rw [if_pos hid]⟩
        · have hmem : id ∈ (rest.filterMap (decodeSlot c)).map c.getID := by
            rw [List.filterMap_cons, hdec] at h
            simp only [List.map_cons, List.mem_cons] at h
            rcases h with h | h
            · exact absurd h.symm hid
            · exact h
          obtain ⟨j, hj⟩ := slotFind_complete c id rest hmem
          exact ⟨j + 1, by dsimp only; rw [if_neg hid, hj]; rfl⟩
      | none =>
        have hmem : id ∈ (rest.filterMap (decodeSlot c)).map c.getID := by
          rw [List.filterMap_cons, hdec] at h
          exact h
        obtain ⟨j, hj⟩ := slotFind_complete c id rest hmem
        exact ⟨j + 1, by dsimp only; rw [hj]; rfl⟩

/-! ### Bridging the byte-level loops to the slot level -/

theorem loadIter_bridge {α : Type} (c : IdCodec α) (hrs : 1 ≤ c.recordSize) :
    ∀ (k : Nat) (pre suf : List Nat) (acc : List (Nat × α)),
      suf.length = c.recordSize * k →
      loadIter c (pre ++ suf) acc pre.length k =
        slotLoad c acc (chunks c.recordSize suf) := by
  intro k
  induction k with
  | zero =>
    intro pre suf acc hlen
    have : suf = [] := List.eq_nil_of_length_eq_zero (by omega)
    subst this
    rw [chunks_nil]
    rfl
  | succ k ih =>
    intro pre suf acc hlen
    rw [Nat.mul_succ] at hlen
    have hsuf : suf ≠ [] := by
      intro h
      subst h
      simp only [List.length_nil] at hlen
      omega
    have hle : c.recordSize ≤ suf.length := by omega
    rw [chunks_cons _ hrs suf hsuf]
    rw [loadIter, slotLoad]
    have hread : FileHandler.ReadRecord c.recordSize (pre ++ suf)
        ((pre.length : Nat) : Int) =
          readChunk c.recordSize (suf.take c.recordSize) := by
      rw [FileHandler.ReadRecord, if_neg (by omega)]
      rw [Int.toNat_natCast, List.drop_left]
    rw [hread]
    have hdec : (readChunk c.recordSize
        (suf.take c.recordSize)).toOption.bind c.unmarshal =
          decodeSlot c (suf.take c.recordSize) := rfl
    rw [hdec]
    have hsplit : pre ++ suf =
        (pre ++ suf.take c.recordSize) ++ suf.drop c.recordSize := by
      rw [List.append_assoc, List.take_append_drop]
    have hplen : pre.length + c.recordSize =
        (pre ++ suf.take c.recordSize).length := by
      rw [List.length_append, List.length_take]
      rw [Nat.min_eq_left hle]
    rw [hsplit, hplen]
    exact ih (pre ++ suf.take c.recordSize) (suf.drop c.recordSize) _
      (by rw [List.length_drop]; omega)

theorem loadCache_eq_slotLoad {α : Type} (c : IdCodec α)
    (hrs : 1 ≤ c.recordSize) (file : List Nat) (k : Nat)
    (hlen : file.length = c.recordSize * k) :
    loadCache c file = slotLoad c [] (chunks c.recordSize file) := by
  have hiter : (file.length + c.recordSize - 1) / c.recordSize = k := by
    rw [hlen]
    rw [show c.recordSize * k + c.recordSize - 1 =
      c.recordSize * k + (c.recordSize - 1) from by omega]
    rw [Nat.mul_add_div (by omega), Nat.div_eq_of_lt (by omega)]
    omega
  rw [loadCache, hiter]
  exact loadIter_bridge c hrs k [] file [] hlen

theorem findIter_bridge {α : Type} (c : IdCodec α) (hrs : 1 ≤ c.recordSize)
    (id : Nat) :
    ∀ (k : Nat) (pre suf : List Nat),
      suf.length = c.recordSize * k →
      findIter c (pre ++ suf) id pre.length k =
        (slotFind c id (chunks c.recordSize suf)).map
          (fun j => pre.length + j * c.recordSize) := by
  intro k
  induction k with
  | zero =>
    intro pre suf hlen
    have : suf = [] := List.eq_nil_of_length_eq_zero (by omega)
    subst this
    rw [chunks_nil]
    rfl
  | succ k ih =>
    intro pre suf hlen
    rw [Nat.mul_succ] at hlen
    have hsuf : suf ≠ [] := by
      intro h
      subst h
      simp only [List.length_nil] at hlen
      omega
    have hle : c.recordSize ≤ suf.length := by omega
    rw [chunks_cons _ hrs suf hsuf]
    rw [findIter, slotFind]
    have hread : FileHandler.ReadRecord c.recordSize (pre ++ suf)
        ((pre.length : Nat) : Int) =
          readChunk c.recordSize (suf.take c.recordSize) := by
      rw [FileHandler.ReadRecord, if_neg (by omega)]
      rw [Int.toNat_natCast, List.drop_left]
    rw [hread]
    have hdec : (readChunk c.recordSize
        (suf.take c.recordSize)).toOption.bind c.unmarshal =
          decodeSlot c (suf.take c.recordSize) := rfl
    rw [hdec]
    have hsplit : pre ++ suf =
        (pre ++ suf.take c.recordSize) ++ suf.drop c.recordSize := by
      rw [List.append_assoc, List.take_append_drop]
    have hplen : pre.length + c.recordSize =
        (pre ++ suf.take c.recordSize).length := by
      rw [List.length_append, List.length_take]
      rw [Nat.min_eq_left hle]
    have hrec := ih (pre ++ suf.take c.recordSize) (suf.drop c.recordSize)
      (by rw [List.length_drop]; omega)
    cases hd : decodeSlot c (suf.take c.recordSize) with
    | some item =>
      dsimp only
      by_cases hid : c.getID item = id
      · rw [if_pos hid, if_pos hid]
        simp
      · rw [if_neg hid, if_neg hid]
        rw [hsplit, hplen, hrec]
        rw [← hplen]
        cases slotFind c id (chunks c.recordSize (suf.drop c.recordSize)) with
        | none => rfl
        | some j =>
          show some (pre.length + c.recordSize + j * c.recordSize) =
            some (pre.length + (j + 1) * c.recordSize)
          congr 1
          ring
    | none =>
      dsimp only
      rw [hsplit, hplen, hrec]
      rw [← hplen]
      cases slotFind c id (chunks c.recordSize (suf.drop c.recordSize)) with
      | none => rfl
      | some j =>
        show some (pre.length + c.recordSize + j * c.recordSize) =
          some (pre.length + (j + 1) * c.recordSize)
        congr 1
        ring

theorem findRecordOffset_eq {α : Type} (c : IdCodec α)
    (hrs : 1 ≤ c.recordSize) (file : List Nat) (id : Nat) (k : Nat)
    (hlen : file.length = c.recordSize * k) :
    findRecordOffset c file id =
      (slotFind c id (chunks c.recordSize file)).map
        (fun j => j * c.recordSize) := by
  have hiter : (file.length + c.recordSize - 1) / c.recordSize = k := by
    rw [hlen]
    rw [show c.recordSize * k + c.recordSize - 1 =
      c.recordSize * k + (c.recordSize - 1) from by omega]
    rw [Nat.mul_add_div (by omega), Nat.div_eq_of_lt (by omega)]
    omega
  rw [findRecordOffset, hiter]
  have := findIter_bridge c hrs id k [] file hlen
  rw [show (([] : List Nat) ++ file) = file from rfl] at this
  rw [show (([] : List Nat)).length = 0 from rfl] at this
  rw [this]
  cases slotFind c id (chunks c.recordSize file) with
  | none => rfl
  | some j => simp

/-! ### Preservation of the identity-manager invariant -/

theorem mkSlot_length (rs : Nat) (data : List Nat) (h1 : 1 ≤ rs)
    (h2 : data.length ≤ rs - 1) : (mkSlot rs data).length = rs := by
  simp only [mkSlot, List.length_cons, List.length_append,
    List.length_replicate]
  omega

theorem akeys_map_pair {α : Type} (c : IdCodec α) (l : List α) :
    akeys (l.map (fun a => (c.getID a, a))) = l.map c.getID := by
  simp [akeys, List.map_map, Function.comp]

theorem nodup_middle_not_mem {γ : Type} (x : γ) (l1 l2 : List γ)
    (h : (l1 ++ x :: l2).Nodup) : x ∉ l1 ∧ x ∉ l2 := by
  rw [List.nodup_append] at h
  obtain ⟨h1, h2, h3⟩ := h
  constructor
  · intro hx
    exact (h3 hx) (List.mem_cons_self x l2)
  · exact (List.nodup_cons.mp h2).1

theorem uniform_decomp (rs : Nat) (S1 S2 : List (List Nat)) (x : List Nat)
    (h1 : ∀ sl ∈ S1, sl.length = rs) (hx : x.length = rs)
    (h2 : ∀ sl ∈ S2, sl.length = rs) :
    ∀ sl ∈ S1 ++ x :: S2, sl.length = rs := by
  intro sl hsl
  rcases List.mem_append.mp hsl with h | h
  · exact h1 sl h
  · rcases List.mem_cons.mp h with h | h
    · subst h
      exact hx
    · exact h2 sl h

theorem mcreate_MInv {α : Type} (c : IdCodec α) (hc : GoodCodec c)
    (wok : Bool) (newId now : Nat) (item : α) (s : MState α)
    (hinv : MInv c s) (hfresh : newId ∉ akeys s.cache) :
    MInv c (mcreate c wok newId now item s).2 := by
  simp only [mcreate]
  split
  · exact hinv
  · split
    · exact hinv
    · next o file' hw =>
      obtain ⟨hfit, hrs1, ho, hf⟩ := WriteRecord_ok _ _ _ _ _ _ hw
      subst hf
      obtain ⟨⟨k, hk⟩, hcache, hnodup⟩ := hinv
      have hid1 : c.getID (c.setCreatedAt (c.setID item newId) now) = newId := by
        rw [hc.getID_setCreatedAt, hc.getID_setID]
      have hmk : (mkSlot c.recordSize
          (c.marshal (c.setCreatedAt (c.setID item newId) now))).length =
            c.recordSize :=
        mkSlot_length _ _ hrs1 hfit
      have hchunks : chunks c.recordSize (s.file ++ mkSlot c.recordSize
          (c.marshal (c.setCreatedAt (c.setID item newId) now))) =
            chunks c.recordSize s.file ++ [mkSlot c.recordSize
              (c.marshal (c.setCreatedAt (c.setID item newId) now))] := by
        rw [chunks_append c.recordSize hrs1 k s.file _ hk,
          chunks_singleton c.recordSize hrs1 _ hmk]
      have hacts : activeItems c (s.file ++ mkSlot c.recordSize
          (c.marshal (c.setCreatedAt (c.setID item newId) now))) =
            activeItems c s.file ++
              [c.setCreatedAt (c.setID item newId) now] := by
        rw [activeItems, hchunks, List.filterMap_append]
        rw [activeItems]
        congr 1
        rw [List.filterMap_cons, decodeSlot_mkSlot c hc _ hfit]
        rfl
      have hids : newId ∉ (activeItems c s.file).map c.getID := by
        intro hmem
        apply hfresh
        rw [hcache, akeys_map_pair]
        exact hmem
      refine ⟨⟨k + 1, ?_⟩, ?_, ?_⟩
      · rw [List.length_append, hk, hmk, Nat.mul_succ]
      · rw [ainsert_not_mem _ _ _ hfresh, hacts, List.map_append, hcache]
        simp [hid1]
      · rw [hacts, List.map_append]
        simp only [List.map_cons, List.map_nil, hid1]
        rw [List.nodup_append]
        refine ⟨hnodup, List.nodup_singleton _, ?_⟩
        intro x hx hxs
        simp only [List.mem_singleton] at hxs
        subst hxs
        exact hids hx

theorem mupdate_MInv {α : Type} (c : IdCodec α) (hc : GoodCodec c)
    (wok : Bool) (now : Nat) (item : α) (s : MState α)
    (hinv : MInv c s) : MInv c (mupdate c wok now item s).2 := by
  simp only [mupdate]
  split
  · exact hinv
  · split
    · exact hinv
    · next off hfo =>
      split
      · exact hinv
      · next file' hu =>
        obtain ⟨hfit, hrs1, hf⟩ := UpdateRecord_ok _ _ _ _ _ _ hu
        obtain ⟨⟨k, hk⟩, hcache, hnodup⟩ := hinv
        rw [findRecordOffset_eq c hrs1 s.file _ k hk] at hfo
        cases hsf : slotFind c (c.getID (c.setUpdatedAt item now))
            (chunks c.recordSize s.file) with
        | none => rw [hsf] at hfo; exact absurd hfo (by simp)
        | some j =>
          rw [hsf] at hfo
          have hoff : off = j * c.recordSize := by simpa using hfo.symm
          obtain ⟨S1, slot, S2, a, hS, hSl, hda, hga⟩ :=
            slotFind_some c _ _ j hsf
          have huni : ∀ sl ∈ chunks c.recordSize s.file,
              sl.length = c.recordSize :=
            chunks_uniform c.recordSize hrs1 k s.file hk
          have huniS1 : ∀ sl ∈ S1, sl.length = c.recordSize := fun sl hsl =>
            huni sl (by rw [hS]; exact List.mem_append_left _ hsl)
          have huniS2 : ∀ sl ∈ S2, sl.length = c.recordSize := fun sl hsl =>
            huni sl (by
              rw [hS]
              exact List.mem_append_right _ (List.mem_cons_of_mem _ hsl))
          have hslot : slot.length = c.recordSize :=
            huni slot (by
              rw [hS]
              exact List.mem_append_right _ (List.mem_cons_self _ _))
          have hfile : s.file = (S1 ++ slot :: S2).flatten := by
            rw [← hS]
            exact (flatten_chunks c.recordSize hrs1 k s.file hk).symm
          have hmk : (mkSlot c.recordSize
              (c.marshal (c.setUpdatedAt item now))).length = c.recordSize :=
            mkSlot_length _ _ hrs1 hfit
          have hwc : writeAt s.file off
              (mkSlot c.recordSize (c.marshal (c.setUpdatedAt item now))) =
                (S1 ++ mkSlot c.recordSize
                  (c.marshal (c.setUpdatedAt item now)) :: S2).flatten := by
            rw [hoff, ← hSl]
            conv_lhs => rw [hfile]
            exact writeAt_slot c.recordSize S1 S2 slot _ huniS1 hslot hmk
          subst hf
          rw [hwc]
          have huninew : ∀ sl ∈ S1 ++ mkSlot c.recordSize
              (c.marshal (c.setUpdatedAt item now)) :: S2,
                sl.length = c.recordSize :=
            uniform_decomp _ _ _ _ huniS1 hmk huniS2
          have hchunks' : chunks c.recordSize ((S1 ++ mkSlot c.recordSize
              (c.marshal (c.setUpdatedAt item now)) :: S2).flatten) =
                S1 ++ mkSlot c.recordSize
                  (c.marshal (c.setUpdatedAt item now)) :: S2 :=
            chunks_flatten_of_uniform c.recordSize hrs1 _ huninew
          have hactsOld : activeItems c s.file =
              S1.filterMap (decodeSlot c) ++ a ::
                S2.filterMap (decodeSlot c) := by
            rw [activeItems, hS, List.filterMap_append, List.filterMap_cons,
              hda]
          have hactsNew : activeItems c ((S1 ++ mkSlot c.recordSize
              (c.marshal (c.setUpdatedAt item now)) :: S2).flatten) =
                S1.filterMap (decodeSlot c) ++ c.setUpdatedAt item now ::
                  S2.filterMap (decodeSlot c) := by
            rw [activeItems, hchunks', List.filterMap_append,
              List.filterMap_cons, decodeSlot_mkSlot c hc _ hfit]
          have hnodup2 := hnodup
          rw [hactsOld, List.map_append, List.map_cons, hga] at hnodup2
          obtain ⟨hnm1, hnm2⟩ := nodup_middle_not_mem _ _ _ hnodup2
          have hkeys1 : c.getID (c.setUpdatedAt item now) ∉
              akeys ((S1.filterMap (decodeSlot c)).map
                (fun a => (c.getID a, a))) := by
            rw [akeys_map_pair]
            exact hnm1
          refine ⟨⟨S1.length + (S2.length + 1), ?_⟩, ?_, ?_⟩
          · rw [length_flatten_of_uniform c.recordSize _ huninew]
            simp [List.length_append, List.length_cons]
            ring
          · rw [hcache, hactsOld, hactsNew]
            simp only [List.map_append, List.map_cons]
            rw [ainsert_append_not_mem _ _ _ _ hkeys1]
            congr 1
            rw [show ((c.getID a, a) : Nat × α) =
              (c.getID (c.setUpdatedAt item now), a) from by rw [hga]]
            exact ainsert_cons_self _ _ _ _
          · rw [hactsNew, List.map_append, List.map_cons]
            rw [hactsOld, List.map_append, List.map_cons, hga] at hnodup
            exact hnodup

theorem mdelete_MInv {α : Type} (c : IdCodec α) (hc : GoodCodec c)
    (wok : Bool) (id : Nat) (s : MState α)
    (hinv : MInv c s) : MInv c (mdelete c wok id s).2 := by
  simp only [mdelete]
  split
  · exact hinv
  · split
    · exact hinv
    · next off hfo =>
      split
      · exact hinv
      · next file' hd =>
        have hf := DeleteRecord_ok _ _ _ _ hd
        obtain ⟨⟨k, hk⟩, hcache, hnodup⟩ := hinv
        have hrs1 : 1 ≤ c.recordSize := hc.rs_ge.trans' (by omega)
        rw [findRecordOffset_eq c hrs1 s.file _ k hk] at hfo
        cases hsf : slotFind c id (chunks c.recordSize s.file) with
        | none => rw [hsf] at hfo; exact absurd hfo (by simp)
        | some j =>
          rw [hsf] at hfo
          have hoff : off = j * c.recordSize := by simpa using hfo.symm
          obtain ⟨S1, slot, S2, a, hS, hSl, hda, hga⟩ :=
            slotFind_some c _ _ j hsf
          have huni : ∀ sl ∈ chunks c.recordSize s.file,
              sl.length = c.recordSize :=
            chunks_uniform c.recordSize hrs1 k s.file hk
          have huniS1 : ∀ sl ∈ S1, sl.length = c.recordSize := fun sl hsl =>
            huni sl (by rw [hS]; exact List.mem_append_left _ hsl)
          have huniS2 : ∀ sl ∈ S2, sl.length = c.recordSize := fun sl hsl =>
            huni sl (by
              rw [hS]
              exact List.mem_append_right _ (List.mem_cons_of_mem _ hsl))
          have hslot : slot.length = c.recordSize :=
            huni slot (by
              rw [hS]
              exact List.mem_append_right _ (List.mem_cons_self _ _))
          have hfile : s.file = (S1 ++ slot :: S2).flatten := by
            rw [← hS]
            exact (flatten_chunks c.recordSize hrs1 k s.file hk).symm
          have htl : (StatusDeleted :: slot.drop 1).length = c.recordSize := by
            simp only [List.length_cons, List.length_drop]
            omega
          have hwc : writeAt s.file off [StatusDeleted] =
              (S1 ++ (StatusDeleted :: slot.drop 1) :: S2).flatten := by
            rw [hoff, ← hSl]
            conv_lhs => rw [hfile]
            exact writeAt_tomb c.recordSize hrs1 S1 S2 slot huniS1 hslot
          subst hf
          rw [hwc]
          have huninew : ∀ sl ∈ S1 ++ (StatusDeleted :: slot.drop 1) :: S2,
              sl.length = c.recordSize :=
            uniform_decomp _ _ _ _ huniS1 htl huniS2
          have hchunks' : chunks c.recordSize
              ((S1 ++ (StatusDeleted :: slot.drop 1) :: S2).flatten) =
                S1 ++ (StatusDeleted :: slot.drop 1) :: S2 :=
            chunks_flatten_of_uniform c.recordSize hrs1 _ huninew
          have hactsOld : activeItems c s.file =
              S1.filterMap (decodeSlot c) ++ a ::
                S2.filterMap (decodeSlot c) := by
            rw [activeItems, hS, List.filterMap_append, List.filterMap_cons,
              hda]
          have hactsNew : activeItems c
              ((S1 ++ (StatusDeleted :: slot.drop 1) :: S2).flatten) =
                S1.filterMap (decodeSlot c) ++
                  S2.filterMap (decodeSlot c) := by
            rw [activeItems, hchunks', List.filterMap_append,
              List.filterMap_cons, decodeSlot_deleted c _]
          have hnodup2 := hnodup
          rw [hactsOld, List.map_append, List.map_cons, hga] at hnodup2
          obtain ⟨hnm1, hnm2⟩ := nodup_middle_not_mem _ _ _ hnodup2
          have hkeys1 : id ∉ akeys ((S1.filterMap (decodeSlot c)).map
              (fun a => (c.getID a, a))) := by
            rw [akeys_map_pair]
            exact hnm1
          refine ⟨⟨S1.length + (S2.length + 1), ?_⟩, ?_, ?_⟩
          · rw [length_flatten_of_uniform c.recordSize _ huninew]
            simp [List.length_append, List.length_cons]
            ring
          · rw [hcache, hactsOld, hactsNew]
            simp only [List.map_append, List.map_cons]
            rw [aerase_append_not_mem _ _ _ hkeys1]
            congr 1
            rw [show ((c.getID a, a) : Nat × α) = (id, a) from by rw [hga]]
            exact aerase_cons_self _ _ _
          · rw [hactsNew, List.map_append]
            rw [hactsOld, List.map_append, List.map_cons] at hnodup
            rw [List.nodup_append] at hnodup ⊢
            obtain ⟨h1, h2, h3⟩ := hnodup
            exact ⟨h1, (List.nodup_cons.mp h2).2,
              fun x hx hx2 => (h3 hx) (List.mem_cons_of_mem _ hx2)⟩

/-- All reachable identity-manager states satisfy the coherence invariant. -/
theorem Reach_MInv {α : Type} (c : IdCodec α) (hc : GoodCodec c)
    (s : MState α) (hs : Reach c s) : MInv c s := by
  induction hs with
  | init =>
    have hai : activeItems c [] = [] := by
      rw [activeItems, chunks_nil]
      rfl
    refine ⟨⟨0, rfl⟩, ?_, ?_⟩
    · show ([] : List (Nat × α)) =
        (activeItems c ([] : List Nat)).map (fun a => (c.getID a, a))
      rw [hai]
      rfl
    · show ((activeItems c ([] : List Nat)).map c.getID).Nodup
      rw [hai]
      exact List.nodup_nil
  | step_create s wok id now item hr hfresh ih =>
    exact mcreate_MInv c hc wok id now item s ih hfresh
  | step_update s wok now item hr ih =>
    exact mupdate_MInv c hc wok now item s ih
  | step_delete s wok id hr ih =>
    exact mdelete_MInv c hc wok id s ih

/-! ### Further association-list algebra -/

theorem alookup_eq_none_of_not_mem {κ β : Type} [DecidableEq κ] (k : κ)
    (l : List (κ × β)) (h : k ∉ akeys l) : alookup k l = none := by
  cases hlk : alookup k l with
  | none => rfl
  | some v =>
    exact absurd ((alookup_isSome_iff_mem k l).mp (by rw [hlk]; rfl)) h

theorem alookup_ainsert_ne {κ β : Type} [DecidableEq κ] (k k' : κ) (v : β)
    (l : List (κ × β)) (h : k' ≠ k) :
    alookup k' (ainsert k v l) = alookup k' l := by
  have hkk : ¬ k = k' := fun hh => h hh.symm
  induction l with
  | nil =>
    simp only [ainsert, alookup]
    rw [if_neg hkk]
  | cons hd tl ih =>
    obtain ⟨k1, v1⟩ := hd
    by_cases hk : k1 = k
    · subst hk
      rw [ainsert, if_pos rfl, alookup, alookup, if_neg hkk, if_neg hkk]
    · rw [ainsert, if_neg hk, alookup, alookup]
      by_cases hk2 : k1 = k'
      · rw [if_pos hk2, if_pos hk2]
      · rw [if_neg hk2, if_neg hk2]
        exact ih

theorem alookup_some_decomp {κ β : Type} [DecidableEq κ] (k : κ) (v : β) :
    ∀ (l : List (κ × β)), alookup k l = some v →
      ∃ l1 l2, l = l1 ++ (k, v) :: l2 ∧ k ∉ akeys l1
  | [], h => by simp [alookup] at h
  | hd :: tl, h => by
      obtain ⟨k1, v1⟩ := hd
      by_cases hk : k1 = k
      · subst hk
        rw [alookup, if_pos rfl] at h
        have hv : v1 = v := Option.some.inj h
        subst hv
        exact ⟨[], tl, rfl, by simp [akeys]⟩
      · rw [alookup, if_neg hk] at h
        obtain ⟨l1, l2, hl, hm⟩ := alookup_some_decomp k v tl h
        refine ⟨(k1, v1) :: l1, l2, by rw [hl]; rfl, ?_⟩
        simp only [akeys, List.map_cons, List.mem_cons]
        push_neg
        exact ⟨fun hh => hk hh.symm, by simpa [akeys] using hm⟩

theorem alookup_aerase_self {κ β : Type} [DecidableEq κ] (k : κ)
    (l : List (κ × β)) (h : (akeys l).Nodup) :
    alookup k (aerase k l) = none := by
  induction l with
  | nil => rfl
  | cons hd tl ih =>
    simp only [akeys, List.map_cons, List.nodup_cons] at h
    by_cases hk : hd.1 = k
    · rw [aerase, if_pos hk]
      apply alookup_eq_none_of_not_mem
      rw [← hk]
      exact h.1
    · rw [aerase, if_neg hk, alookup, if_neg hk]
      exact ih h.2

theorem length_aerase_mem {κ β : Type} [DecidableEq κ] (k : κ) :
    ∀ (l : List (κ × β)), k ∈ akeys l → (aerase k l).length + 1 = l.length
  | [], h => by simp [akeys] at h
  | hd :: tl, h => by
      by_cases hk : hd.1 = k
      · rw [aerase, if_pos hk]
        rfl
      · rw [aerase, if_neg hk]
        have hm : k ∈ akeys tl := by
          simp only [akeys, List.map_cons, List.mem_cons] at h
          rcases h with h | h
          · exact absurd h.symm hk
          · exact h
        rw [List.length_cons, List.length_cons, ← length_aerase_mem k tl hm]

theorem nodup_remove_middle {γ : Type} (x : γ) (l1 l2 : List γ)
    (h : (l1 ++ x :: l2).Nodup) : (l1 ++ l2).Nodup := by
  rw [List.nodup_append] at h ⊢
  obtain ⟨h1, h2, h3⟩ := h
  exact ⟨h1, (List.nodup_cons.mp h2).2,
    fun a ha ha2 => (h3 ha) (List.mem_cons_of_mem _ ha2)⟩

/-! ### Point writes and empty slots -/

/-- Overwriting one byte inside the file changes exactly that byte. -/
theorem writeAt_point (file : List Nat) (off : Nat) (d : Nat)
    (h : off < file.length) :
    (writeAt file off [d]).length = file.length ∧
    (writeAt file off [d])[off]? = some d ∧
    ∀ i, i ≠ off → (writeAt file off [d])[i]? = file[i]? := by
  have hle : off ≤ file.length := le_of_lt h
  have hsh : writeAt file off [d] =
      file.take off ++ d :: file.drop (off + 1) := by
    rw [writeAt, Nat.sub_eq_zero_of_le hle, List.replicate_zero]
    simp
  have htlen : (file.take off).length = off := by
    rw [List.length_take]
    exact Nat.min_eq_left hle
  rw [hsh]
  refine ⟨?_, ?_, ?_⟩
  · simp only [List.length_append, htlen, List.length_cons, List.length_drop]
    omega
  · rw [List.getElem?_append_right (by rw [htlen])]
    rw [htlen, Nat.sub_self]
    simp
  · intro i hi
    by_cases hlt : i < off
    · rw [List.getElem?_append_left (by rw [htlen]; exact hlt)]
      rw [List.getElem?_take]
      rw [if_pos hlt]
    · have hgt : off < i := by omega
      rw [List.getElem?_append_right (by rw [htlen]; omega)]
      rw [htlen]
      have : i - off = (i - off - 1) + 1 := by omega
      rw [this, List.getElem?_cons_succ, List.getElem?_drop]
      congr 1
      omega

/-- A zero-payload slot decodes to nothing when the payload region is
nonempty. -/
theorem readChunk_empty (rs : Nat) (hrs : 2 ≤ rs) :
    readChunk rs (mkSlot rs []) = .error .emptyData := by
  have hmk : (mkSlot rs []).length = rs := mkSlot_length rs [] (by omega)
    (by simp)
  rw [readChunk, if_neg (by omega)]
  rw [hmk, Nat.sub_self, List.replicate_zero, List.append_nil]
  rw [if_neg (by simp [mkSlot, StatusActive, StatusDeleted])]
  have hdrop : (mkSlot rs []).drop 1 = List.replicate (rs - 1) 0 := by
    simp [mkSlot]
  rw [hdrop]
  rw [show (List.replicate (rs - 1) 0 : List Nat) =
    [] ++ List.replicate (rs - 1) 0 from rfl]
  rw [findIdx?_zero_free_append [] (rs - 1) 0 (by simp)]
  rw [if_neg (by omega)]
  rfl

theorem decodeSlot_empty {α : Type} (c : IdCodec α) (hrs : 2 ≤ c.recordSize) :
    decodeSlot c (mkSlot c.recordSize []) = none := by
  rw [decodeSlot, readChunk_empty c.recordSize hrs]
  rfl

theorem slotLoad_append {α : Type} (c : IdCodec α) :
    ∀ (S T : List (List Nat)) (acc : List (Nat × α)),
      slotLoad c acc (S ++ T) = slotLoad c (slotLoad c acc S) T
  | [], T, acc => rfl
  | slot :: S, T, acc => by
      rw [List.cons_append, slotLoad, slotLoad]
      exact slotLoad_append c S T _

/-- On coherent states the load scan reconstructs exactly the cache. -/
theorem MInv_loadCache {α : Type} (c : IdCodec α) (hc : GoodCodec c)
    (s : MState α) (hinv : MInv c s) : loadCache c s.file = s.cache := by
  obtain ⟨⟨k, hk⟩, hcache, hnodup⟩ := hinv
  have hrs1 : 1 ≤ c.recordSize := by
    have := hc.rs_ge
    omega
  rw [loadCache_eq_slotLoad c hrs1 s.file k hk]
  rw [slotLoad_eq_append c _ [] (by intro i hi; simp [akeys]) hnodup]
  rw [hcache]
  rfl

/-- The concrete `Model` codec satisfies the JSON-codec laws. -/
theorem goodModelCodec : GoodCodec modelCodec := by
  refine ⟨by decide, ?_, ?_, ?_, ?_, ?_, ?_⟩
  · intro x
    obtain ⟨a, b, u⟩ := x
    simp [modelCodec]
  · intro x
    obtain ⟨a, b, u⟩ := x
    simp [modelCodec]
  · intro x
    obtain ⟨a, b, u⟩ := x
    simp [modelCodec]
  · intro x t
    rfl
  · intro x t
    rfl
  · intro x i
    rfl

/-! ### C4: reopening a manager rebuilds the same cache -/

/-- C4: for every identity-manager state built by a run of successful (or
failed, hence state-preserving) operations, closing the manager and
constructing a new manager over the resulting file rebuilds — by the
`recordSize`-stride rebuild scan that skips tombstoned or undecodable slots
and keys each decoded record by its decoded identifier — a cache equal, as a
list of key/value bindings, to the cache held before the close. -/
theorem load_reopen {α : Type} (c : IdCodec α) (hc : GoodCodec c)
    (s : MState α) (hs : Reach c s) :
    (newManager c ((mclose s).2.file)).cache = s.cache ∧
    akeys (newManager c ((mclose s).2.file)).cache = akeys s.cache := by
  have hfile : (mclose s).2.file = s.file := by
    rw [mclose]
    split <;> rfl
  rw [hfile]
  have h1 : (newManager c s.file).cache = s.cache := by
    show loadCache c s.file = s.cache
    exact MInv_loadCache c hc s (Reach_MInv c hc s hs)
  exact ⟨h1, by rw [h1]⟩

/-- Witness for C4: a manager holding one created record. -/
theorem load_reopen_witness :
    (newManager modelCodec
        ((mclose (mcreate modelCodec true 5 7 ⟨0, 0, 0⟩
          (initState Model)).2).2.file)).cache =
      (mcreate modelCodec true 5 7 ⟨0, 0, 0⟩ (initState Model)).2.cache :=
  (load_reopen modelCodec goodModelCodec _
    (Reach.step_create (initState Model) true 5 7 ⟨0, 0, 0⟩ Reach.init
      (by decide))).1

/-! ### C7: delete succeeds, removes the entry, and only tombstones -/

/-- C7: on every reachable identity-manager state, deleting a cached
identifier succeeds (with working I/O), after which `Read` fails with
not-found and `Count` drops by exactly one; on the file, the record's slot
offset is located and only the byte at that offset is changed — to
`StatusDeleted` — while every other byte of the file (the slot's payload and
all other slots) is unchanged, and the file length is preserved. -/
theorem delete_tombstones {α : Type} (c : IdCodec α) (hc : GoodCodec c)
    (s : MState α) (hs : Reach c s) (id : Nat) (v : α)
    (hmem : alookup id s.cache = some v) :
    (mdelete c true id s).1 = .ok () ∧
    mread id (mdelete c true id s).2 = .error .notFound ∧
    mcount (mdelete c true id s).2 + 1 = mcount s ∧
    ∃ off, findRecordOffset c s.file id = some off ∧
      (mdelete c true id s).2.file.length = s.file.length ∧
      (mdelete c true id s).2.file[off]? = some StatusDeleted ∧
      ∀ i, i ≠ off → (mdelete c true id s).2.file[i]? = s.file[i]? := by
  obtain ⟨⟨k, hk⟩, hcache, hnodup⟩ := Reach_MInv c hc s hs
  have hrs1 : 1 ≤ c.recordSize := by
    have := hc.rs_ge
    omega
  have hmemk : id ∈ akeys s.cache :=
    (alookup_isSome_iff_mem id s.cache).mp (by rw [hmem]; rfl)
  have hmemid : id ∈ (activeItems c s.file).map c.getID := by
    rw [hcache, akeys_map_pair] at hmemk
    exact hmemk
  obtain ⟨j, hj⟩ := slotFind_complete c id (chunks c.recordSize s.file)
    (by rw [← activeItems]; exact hmemid)
  have hfro : findRecordOffset c s.file id = some (j * c.recordSize) := by
    rw [findRecordOffset_eq c hrs1 s.file id k hk, hj]
    rfl
  obtain ⟨S1, slot, S2, a, hS, hSl, hda, hga⟩ := slotFind_some c _ _ j hj
  have hjlt : j < (chunks c.recordSize s.file).length := by
    rw [hS, List.length_append, List.length_cons]
    omega
  have hnum : (chunks c.recordSize s.file).length = k := by
    have h1 := length_flatten_of_uniform c.recordSize
      (chunks c.recordSize s.file) (chunks_uniform c.recordSize hrs1 k _ hk)
    rw [flatten_chunks c.recordSize hrs1 k s.file hk, hk] at h1
    have hrp : 0 < c.recordSize := by omega
    exact Nat.eq_of_mul_eq_mul_right hrp (by rw [← h1]; ring)
  have hofflt : j * c.recordSize < s.file.length := by
    rw [hk]
    have : j < k := by omega
    calc j * c.recordSize < (j + 1) * c.recordSize := by
          have := hrs1
          nlinarith
      _ ≤ k * c.recordSize := Nat.mul_le_mul_right _ (by omega)
      _ = c.recordSize * k := by ring
  have hdel : FileHandler.DeleteRecord true s.file (j * c.recordSize) =
      .ok (writeAt s.file (j * c.recordSize) [StatusDeleted]) := rfl
  have hstep : mdelete c true id s =
      (.ok (), { s with
        file := writeAt s.file (j * c.recordSize) [StatusDeleted],
        cache := aerase id s.cache }) := by
    rw [mdelete, hmem, hfro]
    dsimp only
    rw [hdel]
  rw [hstep]
  obtain ⟨hl1, hl2, hl3⟩ := writeAt_point s.file (j * c.recordSize)
    StatusDeleted hofflt
  have hkeysnodup : (akeys s.cache).Nodup := by
    rw [hcache, akeys_map_pair]
    exact hnodup
  refine ⟨rfl, ?_, ?_, j * c.recordSize, hfro, hl1, hl2, hl3⟩
  · show (match alookup id (aerase id s.cache) with
      | none => (Except.error Err.notFound : Except Err α)
      | some item => Except.ok item) = Except.error Err.notFound
    rw [alookup_aerase_self id s.cache hkeysnodup]
  · show (aerase id s.cache).length + 1 = s.cache.length
    exact length_aerase_mem id s.cache hmemk

/-- Witness for C7: delete the one record of a one-record manager. -/
theorem delete_tombstones_witness :
    alookup 5 (mcreate modelCodec true 5 7 ⟨0, 0, 0⟩
        (initState Model)).2.cache = some ⟨5, 7, 0⟩ ∧
    ((mdelete modelCodec true 5
        (mcreate modelCodec true 5 7 ⟨0, 0, 0⟩ (initState Model)).2).1 =
      .ok () ∧
     mread 5 (mdelete modelCodec true 5
        (mcreate modelCodec true 5 7 ⟨0, 0, 0⟩ (initState Model)).2).2 =
      .error .notFound) := by
  constructor
  · decide
  · have h := delete_tombstones modelCodec goodModelCodec _
      (Reach.step_create (initState Model) true 5 7 ⟨0, 0, 0⟩ Reach.init
        (by decide)) 5 ⟨5, 7, 0⟩ (by decide)
    exact ⟨h.1, h.2.1⟩

/-! ### C10 (amended): empty payloads for record sizes of at least two -/

/-- C10 amended: for `recordSize ≥ 2`, `WriteRecord` accepts a zero-length
payload and appends an all-padding active slot at a valid offset, but
`ReadRecord` at that offset always fails with the empty-data error, and the
load scan skips such a slot, leaving the rebuilt cache unchanged. -/
theorem empty_payload_unreadable {α : Type} (c : IdCodec α) (rs : Nat)
    (file : List Nat) (hrs : 2 ≤ rs) :
    FileHandler.WriteRecord rs true file [] =
      .ok (file.length, file ++ mkSlot rs []) ∧
    FileHandler.ReadRecord rs (file ++ mkSlot rs [])
      (file.length : Int) = .error .emptyData ∧
    (c.recordSize = rs → ∀ k, file.length = rs * k →
      loadCache c (file ++ mkSlot rs []) = loadCache c file) := by
  have hmk : (mkSlot rs []).length = rs := mkSlot_length rs [] (by omega)
    (by simp)
  refine ⟨?_, ?_, ?_⟩
  · rw [FileHandler.WriteRecord,
      if_neg (by simp only [List.length_nil]; push_cast; omega), if_pos rfl]
  · rw [FileHandler.ReadRecord, if_neg (by omega)]
    rw [Int.toNat_natCast, List.drop_left]
    rw [List.take_of_length_le (le_of_eq hmk)]
    exact readChunk_empty rs hrs
  · intro hcrs k hk
    subst hcrs
    have hrs1 : 1 ≤ c.recordSize := by omega
    rw [loadCache_eq_slotLoad c hrs1 _ (k + 1)
      (by rw [List.length_append, hk, hmk, Nat.mul_succ]),
      loadCache_eq_slotLoad c hrs1 file k hk]
    rw [chunks_append c.recordSize hrs1 k file _ hk,
      chunks_singleton c.recordSize hrs1 _ hmk]
    rw [slotLoad_append]
    rw [slotLoad, decodeSlot_empty c hrs]
    rfl

/-- Witness for C10 amended at `recordSize = 4`. -/
theorem empty_payload_unreadable_witness :
    FileHandler.WriteRecord 4 true [] [] = .ok (0, [] ++ mkSlot 4 []) ∧
    FileHandler.ReadRecord 4 ([] ++ mkSlot 4 []) ((0 : Nat) : Int) =
      .error .emptyData := by
  have h := empty_payload_unreadable modelCodec 4 [] (by omega)
  exact ⟨h.1, h.2.1⟩

/-! ### The relationship manager's parent-index invariant -/

theorem removeFirstKey_append {α : Type} (c : JoinCodec α) (key : List Nat) :
    ∀ (l1 : List α) (w : α) (l2 : List α),
      (∀ x ∈ l1, c.getKey x ≠ key) → c.getKey w = key →
      removeFirstKey c key (l1 ++ w :: l2) = some (l1 ++ l2)
  | [], w, l2, _, hw => by
      rw [List.nil_append, removeFirstKey, if_pos hw]
      rfl
  | x :: l1, w, l2, hne, hw => by
      rw [List.cons_append, removeFirstKey,
        if_neg (hne x (List.mem_cons_self _ _)),
        removeFirstKey_append c key l1 w l2
          (fun y hy => hne y (List.mem_cons_of_mem _ hy)) hw]
      rfl

/-- Inserting a fresh key keeps the join invariant (shared by `Create` and
`Clone`). -/
theorem jinsert_JInv {α : Type} (c : JoinCodec α) (t : JState α)
    (key : List Nat) (item1 : α) (hkey : c.getKey item1 = key)
    (hinv : JInv c t) (hfresh : key ∉ akeys t.dataCache)
    (file' : List Nat) :
    JInv c { t with
        file := file'
        dataCache := ainsert key item1 t.dataCache
        parentCache := pappend t.parentCache (firstPart key) item1 } := by
  obtain ⟨h1, h2, h3⟩ := hinv
  refine ⟨?_, ?_, ?_⟩
  · intro kv hkv
    rw [ainsert_not_mem _ _ _ hfresh] at hkv
    rcases List.mem_append.mp hkv with h | h
    · exact h1 kv h
    · simp only [List.mem_singleton] at h
      subst h
      exact hkey
  · show (akeys (ainsert key item1 t.dataCache)).Nodup
    rw [ainsert_not_mem _ _ _ hfresh]
    simp only [akeys, List.map_append]
    rw [List.nodup_append]
    refine ⟨h2, by simp, ?_⟩
    intro x hx hx2
    simp only [List.map_cons, List.map_nil, List.mem_singleton] at hx2
    subst hx2
    exact hfresh (by simpa [akeys] using hx)
  · intro p
    show (alookup p (pappend t.parentCache (firstPart key) item1)).getD [] =
      ((ainsert key item1 t.dataCache).filter
        (fun kv => firstPart kv.1 == p)).map Prod.snd
    rw [pappend, ainsert_not_mem _ _ _ hfresh]
    by_cases hp : firstPart key = p
    · subst hp
      rw [alookup_ainsert_self]
      simp only [Option.getD_some]
      rw [h3 (firstPart key)]
      rw [jchildren]
      simp [List.filter_append, List.filter_cons]
    · rw [alookup_ainsert_ne _ _ _ _ (fun hh => hp hh.symm)]
      rw [h3 p, jchildren]
      rw [List.filter_append]
      rw [show ([(key, item1)].filter (fun kv => firstPart kv.1 == p)) =
        [] from by simp [List.filter_cons, hp]]
      simp

theorem jcreate_JInv {α : Type} (c : JoinCodec α) (hcj : GoodJoinCodec c)
    (wok : Bool) (now : Nat) (item : α) (t : JState α)
    (hinv : JInv c t) : JInv c (jcreate c wok now item t).2 := by
  simp only [jcreate]
  split
  · exact hinv
  · split
    · exact hinv
    · split
      · exact hinv
      · next o file' hw =>
        have hfresh : c.getKey item ∉ akeys t.dataCache := by
          rename_i hks _
          intro hmem
          exact hks ((alookup_isSome_iff_mem _ _).mpr hmem)
        have hkey : c.getKey (c.setUpdatedAt (c.setCreatedAt item now) now) =
            c.getKey item := by
          rw [hcj.key_setUpdatedAt, hcj.key_setCreatedAt]
        exact jinsert_JInv c t (c.getKey item) _ hkey hinv hfresh file'

theorem jclone_JInv {α : Type} (c : JoinCodec α) (wok : Bool) (item : α)
    (t : JState α) (hinv : JInv c t) : JInv c (jclone c wok item t).2 := by
  simp only [jclone]
  split
  · exact hinv
  · split
    · exact hinv
    · split
      · exact hinv
      · next o file' hw =>
        have hfresh : c.getKey item ∉ akeys t.dataCache := by
          rename_i hks _
          intro hmem
          exact hks ((alookup_isSome_iff_mem _ _).mpr hmem)
        exact jinsert_JInv c t (c.getKey item) item rfl hinv hfresh file'

theorem jdelete_JInv {α : Type} (c : JoinCodec α) (wok : Bool)
    (key : List Nat) (t : JState α) (hinv : JInv c t) :
    JInv c (jdelete c wok key t).2 := by
  simp only [jdelete]
  split
  · exact hinv
  · next w hw =>
    split
    · exact hinv
    · next off hfo =>
      split
      · exact hinv
      · next file' hd =>
        obtain ⟨h1, h2, h3⟩ := hinv
        obtain ⟨D1, D2, hdc, hnm1⟩ := alookup_some_decomp key w t.dataCache hw
        have hkeys : akeys t.dataCache = akeys D1 ++ key :: akeys D2 := by
          rw [hdc]
          simp [akeys]
        have herase : aerase key t.dataCache = D1 ++ D2 := by
          rw [hdc, aerase_append_not_mem _ _ _ hnm1, aerase_cons_self]
        have hkw : c.getKey w = key :=
          h1 (key, w) (by
            rw [hdc]
            exact List.mem_append_right _ (List.mem_cons_self _ _))
        have hch : jchildren t (firstPart key) =
            (D1.filter (fun kv => firstPart kv.1 == firstPart key)).map
              Prod.snd ++ w ::
            (D2.filter (fun kv => firstPart kv.1 == firstPart key)).map
              Prod.snd := by
          rw [jchildren, hdc]
          simp [List.filter_append, List.filter_cons]
        have hne1 : ∀ x ∈ (D1.filter
            (fun kv => firstPart kv.1 == firstPart key)).map Prod.snd,
              c.getKey x ≠ key := by
          intro x hx
          simp only [List.mem_map, List.mem_filter] at hx
          obtain ⟨kv, ⟨hkv1, _⟩, rfl⟩ := hx
          have hk1 := h1 kv (by
            rw [hdc]
            exact List.mem_append_left _ hkv1)
          rw [hk1]
          intro hcon
          apply hnm1
          rw [← hcon]
          exact List.mem_map_of_mem Prod.fst hkv1
        have hrfk : removeFirstKey c key
            ((alookup (firstPart key) t.parentCache).getD []) =
              some ((D1.filter
                (fun kv => firstPart kv.1 == firstPart key)).map Prod.snd ++
              (D2.filter
                (fun kv => firstPart kv.1 == firstPart key)).map Prod.snd) := by
          rw [h3 (firstPart key), hch]
          exact removeFirstKey_append c key _ w _ hne1 hkw
        rw [hrfk]
        dsimp only
        refine ⟨?_, ?_, ?_⟩
        · intro kv hkv
          rw [herase] at hkv
          rcases List.mem_append.mp hkv with h | h
          · exact h1 kv (by rw [hdc]; exact List.mem_append_left _ h)
          · exact h1 kv (by
              rw [hdc]
              exact List.mem_append_right _ (List.mem_cons_of_mem _ h))
        · show (akeys (aerase key t.dataCache)).Nodup
          rw [herase]
          rw [hkeys] at h2
          have : akeys (D1 ++ D2) = akeys D1 ++ akeys D2 := by simp [akeys]
          rw [this]
          exact nodup_remove_middle key _ _ h2
        · intro p
          show (alookup p (ainsert (firstPart key) _ t.parentCache)).getD [] =
            ((aerase key t.dataCache).filter
              (fun kv => firstPart kv.1 == p)).map Prod.snd
          rw [herase]
          by_cases hp : firstPart key = p
          · subst hp
            rw [alookup_ainsert_self]
            simp [List.filter_append]
          · rw [alookup_ainsert_ne _ _ _ _ (fun hh => hp hh.symm)]
            rw [h3 p, jchildren, hdc]
            rw [List.filter_append, List.filter_append]
            rw [show (((key, w) :: D2).filter
              (fun kv => firstPart kv.1 == p)) =
                D2.filter (fun kv => firstPart kv.1 == p) from by
              simp [List.filter_cons, hp]]

/-- All states reachable by `Create`, `Clone` and `Delete` satisfy the
parent-index invariant. -/
theorem JReach_JInv {α : Type} (c : JoinCodec α) (hcj : GoodJoinCodec c)
    (t : JState α) (ht : JReach c t) : JInv c t := by
  induction ht with
  | init =>
    refine ⟨by simp [jinitState], by simp [jinitState, akeys], ?_⟩
    intro p
    simp [jinitState, alookup, jchildren]
  | step_create t wok now item hr ih => exact jcreate_JInv c hcj wok now item t ih
  | step_clone t wok item hr ih => exact jclone_JInv c wok item t ih
  | step_delete t wok key hr ih => exact jdelete_JInv c wok key t ih

/-! ### C2 (amended): parent-index consistency without Update -/

/-- C2 amended: in every relationship-manager state reachable by `Create`,
`Clone` and `Delete`, `GetByParentID(parent)` returns exactly the current
non-deleted children of that parent — the values of the primary-cache
entries whose composite key has `parent` as its first separator-delimited
component — failing exactly when that set is empty.  In particular, after
deleting one child of a parent that child is absent from the returned list
while the parent's other children remain. -/
theorem getByParentID_spec {α : Type} (c : JoinCodec α)
    (hcj : GoodJoinCodec c) (t : JState α) (ht : JReach c t) (p : List Nat) :
    (jchildren t p = [] → jgetByParentID t p = .error .noParent) ∧
    (jchildren t p ≠ [] → jgetByParentID t p = .ok (jchildren t p)) := by
  obtain ⟨h1, h2, h3⟩ := JReach_JInv c hcj t ht
  have hitems := h3 p
  cases hlk : alookup p t.parentCache with
  | none =>
    rw [hlk] at hitems
    simp only [Option.getD_none] at hitems
    constructor
    · intro _
      rw [jgetByParentID, hlk]
    · intro hne
      exact absurd hitems.symm hne
  | some items =>
    rw [hlk] at hitems
    simp only [Option.getD_some] at hitems
    constructor
    · intro hch
      rw [jgetByParentID, hlk]
      dsimp only
      rw [if_pos (by rw [hitems, hch]; rfl)]
    · intro hne
      rw [jgetByParentID, hlk]
      dsimp only
      rw [if_neg (by
        rw [hitems]
        intro hcon
        exact hne (List.eq_nil_of_length_eq_zero hcon)), hitems]

/-- The concrete `JModel` codec satisfies the key laws (its timestamp
setters are the identity). -/
theorem goodJModelCodec : GoodJoinCodec jmodelCodec :=
  ⟨fun _ _ => rfl, fun _ _ => rfl⟩

set_option maxHeartbeats 2000000 in
/-- Witness for the amended C2: create children `1:1` and `1:2` of parent 1,
delete `1:1`, and query the parent. -/
theorem getByParentID_spec_witness :
    jchildren
        (jdelete jmodelCodec true [61, 58, 61]
          (jcreate jmodelCodec true 0 ⟨1, 2, 6⟩
            (jcreate jmodelCodec true 0 ⟨1, 1, 5⟩
              (jinitState JModel)).2).2).2 [61] ≠ [] ∧
    jgetByParentID
        (jdelete jmodelCodec true [61, 58, 61]
          (jcreate jmodelCodec true 0 ⟨1, 2, 6⟩
            (jcreate jmodelCodec true 0 ⟨1, 1, 5⟩
              (jinitState JModel)).2).2).2 [61] =
      .ok (jchildren
        (jdelete jmodelCodec true [61, 58, 61]
          (jcreate jmodelCodec true 0 ⟨1, 2, 6⟩
            (jcreate jmodelCodec true 0 ⟨1, 1, 5⟩
              (jinitState JModel)).2).2).2 [61]) :=
  ⟨by decide,
    (getByParentID_spec jmodelCodec goodJModelCodec _
      (JReach.step_delete _ true [61, 58, 61]
        (JReach.step_create _ true 0 ⟨1, 2, 6⟩
          (JReach.step_create _ true 0 ⟨1, 1, 5⟩ JReach.init))) [61]).2
      (by decide)⟩

/-! ### C2: counterexample — update leaves the parent index stale -/

/-- C2 counterexample: create relationship item `1:1` with payload 5, then
`Update` the same key to payload 9.  The update succeeds and replaces the
primary-cache entry, but `GetByParentID` still returns the pre-update item,
so the returned set differs from the corresponding entries of the primary
cache. -/
theorem parent_index_stale_after_update :
    (jupdate jmodelCodec true 0 ⟨1, 1, 9⟩ jstale0).1 = .ok ⟨1, 1, 9⟩ ∧
    jgetByParentID jstale1 [61] = .ok [⟨1, 1, 5⟩] ∧
    jchildren jstale1 [61] = [⟨1, 1, 9⟩] ∧
    jgetByParentID jstale1 [61] ≠ .ok (jchildren jstale1 [61]) := by
  refine ⟨by decide, by decide, by decide, ?_⟩
  intro h
  rw [show jgetByParentID jstale1 [61] = .ok [⟨1, 1, 5⟩] from by decide,
    show jchildren jstale1 [61] = [⟨1, 1, 9⟩] from by decide] at h
  simp at h

end IrisTools
